import Mathlib

/-!
Verification of the transactional catalog and key-space access layer
(src/lib/src/kvs/tx.rs) against its specification.

The embedding models keys and values as byte strings (lists of naturals),
the backend store as an association list sorted strictly by key, and the
`Transaction` facade with its paged range/prefix engine, catalog cache,
ensure-or-create helpers and exporter.  Backend drivers, key encoders and
value codecs are external collaborators that are not part of the source
tree; where needed they are modelled from the specification and marked as
such in their doc comments.
-/

namespace KVS

/-- Keys are opaque byte strings compared lexicographically (spec section 3). -/
abbrev Key := List Nat

/-- Values are byte strings: the encoded form of a catalog record or row. -/
abbrev Val := List Nat

/-- Strict lexicographic order on byte strings. -/
def keyLt : Key → Key → Bool
  | [], [] => false
  | [], _ :: _ => true
  | _ :: _, [] => false
  | a :: as, b :: bs => if a < b then true else if b < a then false else keyLt as bs

/-- Reflexive lexicographic order on byte strings. -/
def keyLe (a b : Key) : Bool := !(keyLt b a)

theorem keyLt_cons {x y : Nat} {xs ys : Key} :
    keyLt (x :: xs) (y :: ys) = true ↔ x < y ∨ (x = y ∧ keyLt xs ys = true) := by
  simp only [keyLt]
  split_ifs with h1 h2
  · simp [h1]
  · constructor
    · intro h; cases h
    · intro h
      rcases h with h | ⟨h, _⟩
      · omega
      · omega
  · have hxy : x = y := by omega
    simp [hxy, h1]

theorem keyLt_irrefl (a : Key) : keyLt a a = false := by
  induction a with
  | nil => rfl
  | cons x xs ih => simp [keyLt, ih]

theorem keyLt_trans : ∀ {a b c : Key},
    keyLt a b = true → keyLt b c = true → keyLt a c = true := by
  intro a
  induction a with
  | nil =>
    intro b c hab hbc
    cases b with
    | nil => simp [keyLt] at hab
    | cons y ys =>
      cases c with
      | nil => simp [keyLt] at hbc
      | cons z zs => simp [keyLt]
  | cons x xs ih =>
    intro b c hab hbc
    cases b with
    | nil => simp [keyLt] at hab
    | cons y ys =>
      cases c with
      | nil => simp [keyLt] at hbc
      | cons z zs =>
        rw [keyLt_cons] at hab hbc ⊢
        rcases hab with h1 | ⟨h1, h1'⟩ <;> rcases hbc with h2 | ⟨h2, h2'⟩
        · exact Or.inl (by omega)
        · exact Or.inl (by omega)
        · exact Or.inl (by omega)
        · exact Or.inr ⟨by omega, ih h1' h2'⟩

theorem keyLt_asymm {a b : Key} (h : keyLt a b = true) : keyLt b a = false := by
  by_contra hc
  have hba : keyLt b a = true := by
    cases hh : keyLt b a
    · exact absurd hh hc
    · rfl
  have := keyLt_trans h hba
  rw [keyLt_irrefl] at this
  cases this

theorem keyLt_connex : ∀ {a b : Key},
    keyLt a b = false → keyLt b a = false → a = b := by
  intro a
  induction a with
  | nil =>
    intro b hab hba
    cases b with
    | nil => rfl
    | cons y ys => simp [keyLt] at hab
  | cons x xs ih =>
    intro b hab hba
    cases b with
    | nil => simp [keyLt] at hba
    | cons y ys =>
      have hxy : ¬ x < y := by
        intro h
        have : keyLt (x :: xs) (y :: ys) = true := keyLt_cons.mpr (Or.inl h)
        rw [hab] at this; cases this
      have hyx : ¬ y < x := by
        intro h
        have : keyLt (y :: ys) (x :: xs) = true := keyLt_cons.mpr (Or.inl h)
        rw [hba] at this; cases this
      have hx : x = y := by omega
      subst hx
      have h1 : keyLt xs ys = false := by
        cases hh : keyLt xs ys
        · rfl
        · have : keyLt (x :: xs) (x :: ys) = true := keyLt_cons.mpr (Or.inr ⟨rfl, hh⟩)
          rw [hab] at this; cases this
      have h2 : keyLt ys xs = false := by
        cases hh : keyLt ys xs
        · rfl
        · have : keyLt (x :: ys) (x :: xs) = true := keyLt_cons.mpr (Or.inr ⟨rfl, hh⟩)
          rw [hba] at this; cases this
      rw [ih h1 h2]

theorem keyLe_refl (a : Key) : keyLe a a = true := by
  simp [keyLe, keyLt_irrefl]

theorem keyLe_of_keyLt {a b : Key} (h : keyLt a b = true) : keyLe a b = true := by
  simp [keyLe, keyLt_asymm h]

theorem keyLe_keyLt_trans {a b c : Key} (hab : keyLe a b = true) (hbc : keyLt b c = true) :
    keyLt a c = true := by
  simp only [keyLe, Bool.not_eq_true'] at hab
  cases hh : keyLt a c
  · exfalso
    cases hca : keyLt c a
    · have h' : a = c := keyLt_connex hh hca
      rw [h'] at hab
      rw [hbc] at hab; cases hab
    · have : keyLt b a = true := keyLt_trans hbc hca
      rw [this] at hab; cases hab
  · rfl

theorem keyLt_keyLe_trans {a b c : Key} (hab : keyLt a b = true) (hbc : keyLe b c = true) :
    keyLt a c = true := by
  simp only [keyLe, Bool.not_eq_true'] at hbc
  cases hh : keyLt a c
  · exfalso
    cases hca : keyLt c a
    · have h' : a = c := keyLt_connex hh hca
      rw [← h'] at hbc
      rw [hab] at hbc; cases hbc
    · have : keyLt c b = true := keyLt_trans hca hab
      rw [this] at hbc; cases hbc
  · rfl

theorem keyLe_trans {a b c : Key} (hab : keyLe a b = true) (hbc : keyLe b c = true) :
    keyLe a c = true := by
  simp only [keyLe, Bool.not_eq_true'] at hab hbc ⊢
  cases hab' : keyLt a b
  · have : a = b := keyLt_connex hab' hab
    subst this
    exact hbc
  · cases hh : keyLt c a
    · rfl
    · exfalso
      have : keyLt c b = true := keyLt_trans hh hab'
      rw [this] at hbc; cases hbc

theorem keyLt_nil_right : ∀ a : Key, keyLt a [] = false
  | [] => rfl
  | _ :: _ => rfl

/-- Appending a zero byte yields the least strict successor: `b < a ++ [0]` iff `¬ a < b`,
the rationale for the cursor advance in the paged engine (spec section 4.2). -/
theorem keyLt_append_zero (a : Key) : ∀ b : Key, keyLt b (a ++ [0]) = !(keyLt a b) := by
  induction a with
  | nil =>
    intro b
    cases b with
    | nil => rfl
    | cons y ys =>
      simp only [List.nil_append, keyLt]
      cases y with
      | zero => simp [keyLt, keyLt_nil_right]
      | succ n => simp
  | cons x xs ih =>
    intro b
    cases b with
    | nil => simp [keyLt]
    | cons y ys =>
      simp only [List.cons_append, keyLt]
      rcases Nat.lt_trichotomy x y with h | h | h
      · simp [h, Nat.lt_asymm h]
      · subst h
        simp [Nat.lt_irrefl, ih ys]
      · simp [h, Nat.lt_asymm h]

/-- A key between a prefix and the prefix with `0xff` appended extends the prefix
(spec section 4.2, `getp` over `[prefix, prefix + 0xff)`). -/
theorem isPrefix_of_range : ∀ {p k : Key},
    keyLe p k = true → keyLt k (p ++ [255]) = true → p <+: k := by
  intro p
  induction p with
  | nil => intro k _ _; exact List.nil_prefix
  | cons x xs ih =>
    intro k hle hlt
    cases k with
    | nil =>
      simp [keyLe, keyLt] at hle
    | cons y ys =>
      simp only [keyLe, Bool.not_eq_true'] at hle
      simp only [List.cons_append] at hlt
      rw [keyLt_cons] at hlt
      rcases Nat.lt_trichotomy x y with h | h | h
      · exfalso
        have : keyLt (y :: ys) (x :: xs) = false := hle
        rcases hlt with h' | ⟨h', _⟩ <;> omega
      · subst h
        have h1 : keyLt ys xs = false := by
          cases hh : keyLt ys xs
          · rfl
          · have : keyLt (x :: ys) (x :: xs) = true := keyLt_cons.mpr (Or.inr ⟨rfl, hh⟩)
            rw [this] at hle; cases hle
        have h2 : keyLt ys (xs ++ [255]) = true := by
          rcases hlt with h' | ⟨_, h'⟩
          · omega
          · exact h'
        have := ih (k := ys) (by simp [keyLe, h1]) h2
        exact (List.prefix_cons_inj x).mpr this
      · exfalso
        have : keyLt (y :: ys) (x :: xs) = true := keyLt_cons.mpr (Or.inl h)
        rw [this] at hle; cases hle

/-! ## The backend store model -/

/-- The backend store: an association list of key-value pairs, kept strictly
ascending by key.  The backend drivers are external to `src`; the sorted
association list is the canonical model of the ordered key-value store they
present (spec sections 2 and 4.1). -/
abbrev Store := List (Key × Val)

/-- Entries of the store whose key lies in the half-open range `[beg, fin)`. -/
def rangeOf (store : Store) (beg fin : Key) : Store :=
  store.filter (fun kv => keyLe beg kv.1 && keyLt kv.1 fin)

/-- Modelled from the spec: the backend primitive `scan(range, limit)` (section 4.1)
returns at most `limit` entries whose key lies in `[beg, fin)`, in ascending key
order; the backend drivers themselves are absent from `src`.  On the sorted
association-list model this is a take of the in-range entries. -/
def scanStore (store : Store) (beg fin : Key) (limit : Nat) : Store :=
  (rangeOf store beg fin).take limit

/-- The store invariant: keys strictly ascending (hence unique). -/
def SortedStore (store : Store) : Prop :=
  store.Pairwise (fun a b => keyLt a.1 b.1 = true)

instance (s : Store) : Decidable (SortedStore s) := by
  unfold SortedStore
  infer_instance

theorem sortedStore_rangeOf {s : Store} (hs : SortedStore s) (beg fin : Key) :
    SortedStore (rangeOf s beg fin) :=
  hs.sublist (List.filter_sublist s)

theorem mem_rangeOf {s : Store} {beg fin : Key} {kv : Key × Val} :
    kv ∈ rangeOf s beg fin ↔ kv ∈ s ∧ keyLe beg kv.1 = true ∧ keyLt kv.1 fin = true := by
  simp [rangeOf, List.mem_filter]

/-- In a strictly sorted list, nothing is strictly above the last element. -/
theorem sorted_getLast?_not_lt : ∀ {l : Store}, SortedStore l →
    ∀ {last x : Key × Val}, l.getLast? = some last → x ∈ l → keyLt last.1 x.1 = false := by
  intro l
  induction l with
  | nil => intro _ last x h _; cases h
  | cons a t ih =>
    intro hs last x hlast hx
    cases t with
    | nil =>
      have haeq : a = last := Option.some.inj hlast
      have hxa : x = a := by
        rcases List.mem_cons.mp hx with h | h
        · exact h
        · cases h
      rw [← haeq, hxa]
      exact keyLt_irrefl a.1
    | cons b t' =>
      rw [List.getLast?_cons_cons] at hlast
      have hs' : SortedStore (b :: t') := hs.sublist (List.sublist_cons_self a (b :: t'))
      have hmem : last ∈ b :: t' := List.mem_of_getLast?_eq_some hlast
      rcases List.mem_cons.mp hx with hxa | hxt
      · subst hxa
        have halast : keyLt x.1 last.1 = true := by
          rcases hs with _ | ⟨hrel, _⟩
          exact hrel last hmem
        exact keyLt_asymm halast
      · exact ih hs' hlast hxt

/-- A strictly sorted list filtered to everything above its `w`-prefix's last
element is exactly the rest of the list: the key step justifying the cursor
advance of the paged engine. -/
theorem sorted_filter_after_take : ∀ {F : Store}, SortedStore F →
    ∀ {w : Nat} {last : Key × Val}, (F.take w).getLast? = some last →
      F.filter (fun kv => keyLt last.1 kv.1) = F.drop (F.take w).length := by
  intro F
  induction F with
  | nil => intro _ w last h; simp at h
  | cons a t ih =>
    intro hs w last hlast
    cases w with
    | zero => simp at hlast
    | succ m =>
      rw [List.take_succ_cons] at hlast ⊢
      have hs' : SortedStore t := hs.sublist (List.sublist_cons_self a t)
      have hall : ∀ x ∈ t, keyLt a.1 x.1 = true := by
        intro x hx
        rcases hs with _ | ⟨hrel, _⟩
        exact hrel x hx
      cases htm : t.take m with
      | nil =>
        rw [htm] at hlast
        have haeq : a = last := Option.some.inj hlast
        rw [← haeq]
        rw [List.filter_cons_of_neg (by simp [keyLt_irrefl])]
        have h1 : t.filter (fun kv => keyLt a.1 kv.1) = t := by
          apply List.filter_eq_self.mpr
          intro x hx; simpa using hall x hx
        rw [h1]
        simp
      | cons b rest =>
        have hlast' : (t.take m).getLast? = some last := by
          rw [htm]
          rw [htm] at hlast
          rwa [List.getLast?_cons_cons] at hlast
        have hmem : last ∈ t := List.mem_of_mem_take (List.mem_of_getLast?_eq_some hlast')
        have ha : keyLt a.1 last.1 = true := hall last hmem
        rw [List.filter_cons_of_neg (by simp [keyLt_asymm ha])]
        rw [ih hs' hlast']
        rw [htm]
        simp

/-- After a batch ending at `last`, the entries above the cursor successor
`last.1 ++ [0]` are exactly the in-range entries not yet seen. -/
theorem rangeOf_after {store : Store} (hs : SortedStore store) {s fin : Key} {w : Nat}
    {last : Key × Val} (hlast : ((rangeOf store s fin).take w).getLast? = some last) :
    rangeOf store (last.1 ++ [0]) fin
      = (rangeOf store s fin).drop ((rangeOf store s fin).take w).length := by
  have hmemF : last ∈ rangeOf store s fin :=
    List.mem_of_mem_take (List.mem_of_getLast?_eq_some hlast)
  have hsle : keyLe s last.1 = true := (mem_rangeOf.mp hmemF).2.1
  have h1 : rangeOf store (last.1 ++ [0]) fin
      = store.filter (fun kv => keyLt last.1 kv.1 && keyLt kv.1 fin) := by
    apply List.filter_congr
    intro kv _
    rw [keyLe, keyLt_append_zero, Bool.not_not]
  have h2 : (rangeOf store s fin).filter (fun kv => keyLt last.1 kv.1)
      = store.filter (fun kv => keyLt last.1 kv.1 && keyLt kv.1 fin) := by
    rw [rangeOf, List.filter_filter]
    apply List.filter_congr
    intro kv _
    cases hq : keyLt last.1 kv.1
    · simp
    · have hlt : keyLt s kv.1 = true := keyLe_keyLt_trans hsle hq
      have : keyLe s kv.1 = true := keyLe_of_keyLt hlt
      simp [this]
  rw [h1, ← h2]
  exact sorted_filter_after_take (sortedStore_rangeOf hs s fin) hlast

/-- Splitting a take at a window boundary: the batch plus the take of the rest
reassembles the take of the whole, provided the window is within the budget. -/
theorem take_chunk_split {α : Type} (F : List α) (w num : Nat) (hw : w ≤ num) :
    F.take w ++ (F.drop (F.take w).length).take (num - (F.take w).length) = F.take num := by
  rcases Nat.le_total F.length w with hlen | hlen
  · rw [List.take_of_length_le hlen, List.take_of_length_le (le_trans hlen hw)]
    simp [List.drop_length]
  · have hlw : (F.take w).length = w := List.length_take_of_le hlen
    rw [hlw]
    have hsum : num = w + (num - w) := by omega
    conv_rhs => rw [hsum]
    rw [List.take_add]

/-! ## Errors, catalog records and codecs -/

/-- The error taxonomy carried by every fallible operation (crate::err::Error,
spec section 7).  `Unreachable` models the `unreachable!()` panic raised by the
cached accessors when a cache entry has the wrong variant. -/
inductive Error
  | TxFinished
  | TxReadOnly
  | TxConflict
  | TxConditionNotMet
  | TxKeyAlreadyExists
  | Io
  | NsNotFound
  | NlNotFound
  | NtNotFound
  | DbNotFound
  | DlNotFound
  | DtNotFound
  | ScNotFound
  | StNotFound
  | TbNotFound
  | ChannelSend
  | Unreachable
  deriving DecidableEq

/-- Modelled from the spec: table permissions (section 4.4); `DefineTableStatement`
lives outside src.  `Permissions.none` is the all-denied configuration produced
by `Permissions::none()`. -/
inductive Permissions
  | none
  | full
  deriving DecidableEq

/-- Modelled from the spec: catalog record for a namespace (name only, section 4.4). -/
structure DefineNamespaceStatement where
  name : String
  deriving DecidableEq

/-- Modelled from the spec: catalog record for a database (name only, section 4.4). -/
structure DefineDatabaseStatement where
  name : String
  deriving DecidableEq

/-- Modelled from the spec: catalog record for a table; besides the name and the
permissions it carries further configuration, all of it defaulted by
`DefineTableStatement::default()` and represented here by the `drop` and `full`
flags. -/
structure DefineTableStatement where
  name : String
  drop : Bool := false
  full : Bool := false
  permissions : Permissions := Permissions.full
  deriving DecidableEq

/-- Modelled from the spec: login record (section 3). -/
structure DefineLoginStatement where
  name : String
  deriving DecidableEq

/-- Modelled from the spec: token record (section 3). -/
structure DefineTokenStatement where
  name : String
  deriving DecidableEq

/-- Modelled from the spec: scope record (section 3). -/
structure DefineScopeStatement where
  name : String
  deriving DecidableEq

/-- Modelled from the spec: field definition record (section 3). -/
structure DefineFieldStatement where
  name : String
  deriving DecidableEq

/-- Modelled from the spec: index definition record (section 3). -/
structure DefineIndexStatement where
  name : String
  deriving DecidableEq

/-- Modelled from the spec: event definition record (section 3). -/
structure DefineEventStatement where
  name : String
  deriving DecidableEq

/-- Modelled from the spec: string contents as a byte string (code points). -/
def strVal (s : String) : List Nat := s.data.map Char.toNat

/-- Modelled from the spec: decoding a byte string back into text. -/
def valStr (v : List Nat) : String := String.mk (v.map Char.ofNat)

def encodeNs (x : DefineNamespaceStatement) : Val := strVal x.name

def decodeNs (v : Val) : DefineNamespaceStatement := { name := valStr v }

def encodeDb (x : DefineDatabaseStatement) : Val := strVal x.name

def decodeDb (v : Val) : DefineDatabaseStatement := { name := valStr v }

def permTag : Permissions → Nat
  | .none => 0
  | .full => 1

def boolTag : Bool → Nat
  | false => 0
  | true => 1

def encodeTb (x : DefineTableStatement) : Val :=
  permTag x.permissions :: boolTag x.drop :: boolTag x.full :: strVal x.name

def decodeTb (v : Val) : DefineTableStatement :=
  match v with
  | p :: d :: f :: rest =>
    { name := valStr rest
      drop := d == 1
      full := f == 1
      permissions := if p == 1 then Permissions.full else Permissions.none }
  | _ => { name := valStr [], permissions := Permissions.none }

def decodeDl (v : Val) : DefineLoginStatement := { name := valStr v }

def decodeDt (v : Val) : DefineTokenStatement := { name := valStr v }

def decodeSc (v : Val) : DefineScopeStatement := { name := valStr v }

def decodeFd (v : Val) : DefineFieldStatement := { name := valStr v }

def decodeIx (v : Val) : DefineIndexStatement := { name := valStr v }

def decodeEv (v : Val) : DefineEventStatement := { name := valStr v }

/-! ## Key encoders

Modelled from the spec: the key encoders (crate::key, spec sections 3 and 6)
are pure functions producing canonical byte strings. Each catalog kind has a
two-byte tag; components are separated by `/` (byte 47); a list range is the
tagged scope key bracketed by the sentinel suffixes 0x00 and 0xff. -/

/-- Modelled from the spec: `kind/<p1>/<p2>/...` as a byte string. -/
def kindKey (kind : List Nat) (parts : List String) : Key :=
  kind ++ (parts.map (fun p => 47 :: strVal p)).flatten

/-- Lower bound of the list range of a kind at a scope (`crate::key::X::prefix`). -/
def listBegOf (kind : List Nat) (parts : List String) : Key := kindKey kind parts ++ [0]

/-- Upper bound of the list range of a kind at a scope (`crate::key::X::suffix`). -/
def listFinOf (kind : List Nat) (parts : List String) : Key := kindKey kind parts ++ [255]

def nsKey (ns : String) : Key := kindKey [110, 115] [ns]

def dbKey (ns db : String) : Key := kindKey [100, 98] [ns, db]

def tbKey (ns db tb : String) : Key := kindKey [116, 98] [ns, db, tb]

def nsListBeg : Key := listBegOf [110, 115] []

def nsListFin : Key := listFinOf [110, 115] []

def dlListBeg (ns db : String) : Key := listBegOf [100, 108] [ns, db]

def dlListFin (ns db : String) : Key := listFinOf [100, 108] [ns, db]

def dtListBeg (ns db : String) : Key := listBegOf [100, 116] [ns, db]

def dtListFin (ns db : String) : Key := listFinOf [100, 116] [ns, db]

def scListBeg (ns db : String) : Key := listBegOf [115, 99] [ns, db]

def scListFin (ns db : String) : Key := listFinOf [115, 99] [ns, db]

def tbListBeg (ns db : String) : Key := listBegOf [116, 98] [ns, db]

def tbListFin (ns db : String) : Key := listFinOf [116, 98] [ns, db]

def fdListBeg (ns db tb : String) : Key := listBegOf [102, 100] [ns, db, tb]

def fdListFin (ns db tb : String) : Key := listFinOf [102, 100] [ns, db, tb]

def ixListBeg (ns db tb : String) : Key := listBegOf [105, 120] [ns, db, tb]

def ixListFin (ns db tb : String) : Key := listFinOf [105, 120] [ns, db, tb]

def evListBeg (ns db tb : String) : Key := listBegOf [101, 118] [ns, db, tb]

def evListFin (ns db tb : String) : Key := listFinOf [101, 118] [ns, db, tb]

/-- Modelled from the spec: `thing::prefix(ns, db, tb)` for the row range. -/
def thingBeg (ns db tb : String) : Key := listBegOf [116, 104] [ns, db, tb]

/-- Modelled from the spec: `thing::suffix(ns, db, tb)` for the row range. -/
def thingFin (ns db tb : String) : Key := listFinOf [116, 104] [ns, db, tb]

/-! ## The catalog cache -/

/-- A cache entry is either a single shared catalog record or a shared list of
records (crate::kvs::cache::Entry; the cache module is outside src and is
modelled from spec section 4.3). -/
inductive Entry
  | Ns (v : DefineNamespaceStatement)
  | Db (v : DefineDatabaseStatement)
  | Tb (v : DefineTableStatement)
  | Nss (v : List DefineNamespaceStatement)
  | Dls (v : List DefineLoginStatement)
  | Dts (v : List DefineTokenStatement)
  | Scs (v : List DefineScopeStatement)
  | Tbs (v : List DefineTableStatement)
  | Fds (v : List DefineFieldStatement)
  | Ixs (v : List DefineIndexStatement)
  | Evs (v : List DefineEventStatement)
  deriving DecidableEq

/-- Modelled from the spec: the per-transaction cache is a mapping from encoded
catalog keys to entries with `exi`, `get` and `set`, no eviction (section 4.3). -/
abbrev Cache := List (Key × Entry)

def cacheGet : Cache → Key → Option Entry
  | [], _ => Option.none
  | (k, e) :: c, k' => if k = k' then some e else cacheGet c k'

def cacheSet (c : Cache) (k : Key) (e : Entry) : Cache := (k, e) :: c

theorem cacheGet_set (c : Cache) (k : Key) (e : Entry) :
    cacheGet (cacheSet c k e) k = some e := by
  simp [cacheSet, cacheGet]

theorem cacheGet_set_ne (c : Cache) {k k' : Key} (h : k ≠ k') (e : Entry) :
    cacheGet (cacheSet c k e) k' = cacheGet c k' := by
  simp [cacheSet, cacheGet, h]

/-! ## The transaction handle and its primitives -/

/-- The transaction handle: the backend adapter state (closed flag plus the
store contents seen by this transaction) and the catalog cache (tx.rs 26-44).
The backend-native transaction is modelled from spec section 4.1 by the
`closed` flag and the sorted association-list `store`. -/
structure Transaction where
  closed : Bool
  store : Store
  cache : Cache
  deriving DecidableEq

/-- Point lookup in the sorted association list. -/
def storeGet : Store → Key → Option Val
  | [], _ => Option.none
  | (k, v) :: s, k' => if k = k' then some v else storeGet s k'

/-- Order-preserving insert or replace. -/
def storeSet : Store → Key → Val → Store
  | [], k, v => [(k, v)]
  | (k', v') :: s, k, v =>
    if keyLt k k' then (k, v) :: (k', v') :: s
    else if k = k' then (k, v) :: s
    else (k', v') :: storeSet s k v

/-- Deletion by key. -/
def storeDel (s : Store) (k : Key) : Store :=
  s.filter (fun kv => !(decide (kv.1 = k)))

/-- Primitive `cancel` (tx.rs 85-113): discard and mark closed.  The rollback of
pending mutations happens inside the backend; no modelled claim observes the
store of a closed transaction, so it is left as is. -/
def Transaction.cancel (t : Transaction) : Except Error Transaction :=
  if t.closed then .error .TxFinished else .ok { t with closed := true }

/-- Primitive `commit` (tx.rs 117-145): persist and mark closed. -/
def Transaction.commit (t : Transaction) : Except Error Transaction :=
  if t.closed then .error .TxFinished else .ok { t with closed := true }

/-- Primitive `del` (tx.rs 147-178). -/
def Transaction.del (t : Transaction) (k : Key) : Except Error Transaction :=
  if t.closed then .error .TxFinished else .ok { t with store := storeDel t.store k }

/-- Primitive `exi` (tx.rs 180-211). -/
def Transaction.exi (t : Transaction) (k : Key) : Except Error Bool :=
  if t.closed then .error .TxFinished else .ok (storeGet t.store k).isSome

/-- Primitive `get` (tx.rs 213-244). -/
def Transaction.get (t : Transaction) (k : Key) : Except Error (Option Val) :=
  if t.closed then .error .TxFinished else .ok (storeGet t.store k)

/-- Primitive `set` (tx.rs 246-278). -/
def Transaction.set (t : Transaction) (k : Key) (v : Val) : Except Error Transaction :=
  if t.closed then .error .TxFinished else .ok { t with store := storeSet t.store k v }

/-- Primitive `put` (tx.rs 280-312): write iff absent. -/
def Transaction.put (t : Transaction) (k : Key) (v : Val) : Except Error Transaction :=
  if t.closed then .error .TxFinished
  else
    match storeGet t.store k with
    | some _ => .error .TxKeyAlreadyExists
    | Option.none => .ok { t with store := storeSet t.store k v }

/-- Primitive `scan` (tx.rs 316-347): at most `limit` in-range entries in
ascending key order, in a single request. -/
def Transaction.scan (t : Transaction) (beg fin : Key) (limit : Nat) :
    Except Error (List (Key × Val)) :=
  if t.closed then .error .TxFinished else .ok (scanStore t.store beg fin limit)

/-- Primitive `putc` (tx.rs 349-381): write iff the current value matches `chk`
(a missing `chk` means the key must be absent). -/
def Transaction.putc (t : Transaction) (k : Key) (v : Val) (chk : Option Val) :
    Except Error Transaction :=
  if t.closed then .error .TxFinished
  else if storeGet t.store k = chk then .ok { t with store := storeSet t.store k v }
  else .error .TxConditionNotMet

/-- Primitive `delc` (tx.rs 383-415): delete iff the current value matches `chk`. -/
def Transaction.delc (t : Transaction) (k : Key) (chk : Option Val) :
    Except Error Transaction :=
  if t.closed then .error .TxFinished
  else if storeGet t.store k = chk then .ok { t with store := storeDel t.store k }
  else .error .TxConditionNotMet

/-- C6: on a transaction handle on which `commit` or `cancel` has returned
successfully, every further operation — `get`, `set`, `put`, `del`, `exi`,
`scan`, `putc`, `delc`, and a second `commit` or `cancel` — fails with
`TxFinished`, because every primitive checks the closed flag first.
The closed-flag discipline of the backend drivers is modelled from spec
sections 4.1 and 7. -/
theorem closed_transaction_errors (t0 t : Transaction) (k : Key) (v : Val)
    (chk : Option Val) (beg fin : Key) (limit : Nat)
    (h : t0.cancel = .ok t ∨ t0.commit = .ok t) :
    t.get k = .error .TxFinished
    ∧ t.set k v = .error .TxFinished
    ∧ t.put k v = .error .TxFinished
    ∧ t.del k = .error .TxFinished
    ∧ t.exi k = .error .TxFinished
    ∧ t.scan beg fin limit = .error .TxFinished
    ∧ t.putc k v chk = .error .TxFinished
    ∧ t.delc k chk = .error .TxFinished
    ∧ t.commit = .error .TxFinished
    ∧ t.cancel = .error .TxFinished := by
  have hc : t.closed = true := by
    rcases h with h | h
    · by_cases hcl : t0.closed <;> simp [Transaction.cancel, hcl] at h
      rw [← h]
    · by_cases hcl : t0.closed <;> simp [Transaction.commit, hcl] at h
      rw [← h]
  simp [Transaction.get, Transaction.set, Transaction.put, Transaction.del,
    Transaction.exi, Transaction.scan, Transaction.putc, Transaction.delc,
    Transaction.commit, Transaction.cancel, hc]

theorem closed_transaction_errors_witness :
    (Transaction.mk true [] []).get [] = .error .TxFinished
    ∧ (Transaction.mk true [] []).commit = .error .TxFinished := by
  have h := closed_transaction_errors (Transaction.mk false [] [])
    (Transaction.mk true [] []) [] [] Option.none [] [] 0 (Or.inl rfl)
  exact ⟨h.1, h.2.2.2.2.2.2.2.2.1⟩

/-! ## The paged range/prefix engine -/

/-- `u32::MAX`, the limit passed by the catalog accessors. -/
def u32Max : Nat := 4294967295

/-- The scan start of an iteration of the paged engine: the original `beg` when
no batch has been seen, otherwise the last key of the previous batch with a
zero byte appended (the lexicographically least strict successor). -/
def cursorKey (beg : Key) : Option Key → Key
  | Option.none => beg
  | some c => c ++ [0]

/-- Loop of `Transaction.getr` (tx.rs 419-465).  State: the cursor `nxt`, the
remaining budget `num` (a `u32` in the source; the batch length never exceeds
`num`, so natural subtraction is exact), the accumulated output, and the number
of backend `scan` calls issued so far.  `fuel` only bounds the recursion: every
call keeps `num ≤ fuel`, and each iteration consumes at least one unit of
`num`, so the fuel-exhausted branch coincides with the `num = 0` exit of the
source's `while num > 0` loop. -/
def getrGo (t : Transaction) (beg fin : Key) :
    Nat → Option Key → Nat → List (Key × Val) → Nat →
      Except Error (List (Key × Val) × Nat)
  | _, _, 0, out, scans => .ok (out, scans)
  | 0, _, _, out, scans => .ok (out, scans)
  | fuel + 1, nxt, num, out, scans =>
    match t.scan (cursorKey beg nxt) fin (Nat.min 1000 num) with
    | .error e => .error e
    | .ok res =>
      match res.getLast? with
      | Option.none => .ok (out, scans + 1)
      | some last =>
        getrGo t beg fin fuel (some last.1) (num - res.length) (out ++ res) (scans + 1)

/-- `Transaction.getr` (tx.rs 419-465): fetch a range of keys in batches of at
most 1000, projecting away the scan counter kept by the loop. -/
def Transaction.getr (t : Transaction) (beg fin : Key) (limit : Nat) :
    Except Error (List (Key × Val)) :=
  (getrGo t beg fin limit Option.none limit [] 0).map Prod.fst

/-- On an open transaction over a sorted store, the `getr` loop returns the
still-pending in-range entries up to the remaining budget, appended to the
accumulator, and issues at most `num` further scans. -/
theorem getrGo_spec (t : Transaction) (beg fin : Key) (hopen : t.closed = false)
    (hs : SortedStore t.store) :
    ∀ fuel nxt num out scans, num ≤ fuel →
      ∃ c, getrGo t beg fin fuel nxt num out scans
          = .ok (out ++ (rangeOf t.store (cursorKey beg nxt) fin).take num, scans + c)
        ∧ c ≤ num := by
  intro fuel
  induction fuel with
  | zero =>
    intro nxt num out scans hnum
    have hz : num = 0 := Nat.le_zero.mp hnum
    subst hz
    exact ⟨0, by simp [getrGo], by omega⟩
  | succ f ih =>
    intro nxt num out scans hnum
    cases num with
    | zero => exact ⟨0, by simp [getrGo], by omega⟩
    | succ n =>
      have hscan : t.scan (cursorKey beg nxt) fin (Nat.min 1000 (n + 1))
          = .ok ((rangeOf t.store (cursorKey beg nxt) fin).take (Nat.min 1000 (n + 1))) := by
        simp [Transaction.scan, hopen, scanStore]
      have hunfold : getrGo t beg fin (f + 1) nxt (n + 1) out scans
          = match ((rangeOf t.store (cursorKey beg nxt) fin).take
              (Nat.min 1000 (n + 1))).getLast? with
            | Option.none => .ok (out, scans + 1)
            | some last =>
              getrGo t beg fin f (some last.1)
                ((n + 1) - ((rangeOf t.store (cursorKey beg nxt) fin).take
                  (Nat.min 1000 (n + 1))).length)
                (out ++ (rangeOf t.store (cursorKey beg nxt) fin).take
                  (Nat.min 1000 (n + 1))) (scans + 1) := by
        rw [getrGo, hscan]
        simp
      cases hres : ((rangeOf t.store (cursorKey beg nxt) fin).take
          (Nat.min 1000 (n + 1))).getLast? with
      | none =>
        simp only [hres] at hunfold
        have hFnil : rangeOf t.store (cursorKey beg nxt) fin = [] := by
          have := List.getLast?_eq_none_iff.mp hres
          rcases List.take_eq_nil_iff.mp this with h | h
          · exfalso
            have hpos : 0 < Nat.min 1000 (n + 1) := Nat.lt_min.mpr ⟨by omega, by omega⟩
            rw [h] at hpos
            exact Nat.lt_irrefl 0 hpos
          · exact h
        refine ⟨1, ?_, by omega⟩
        rw [hunfold, hFnil]
        simp
      | some last =>
        simp only [hres] at hunfold
        have hlen1 : 1 ≤ ((rangeOf t.store (cursorKey beg nxt) fin).take
            (Nat.min 1000 (n + 1))).length := by
          have hne : ((rangeOf t.store (cursorKey beg nxt) fin).take
              (Nat.min 1000 (n + 1))) ≠ [] := by
            intro hnil
            rw [hnil] at hres
            simp at hres
          have := List.length_pos.mpr hne
          omega
        have hwle : Nat.min 1000 (n + 1) ≤ n + 1 := Nat.min_le_right 1000 (n + 1)
        have hlenle : ((rangeOf t.store (cursorKey beg nxt) fin).take
            (Nat.min 1000 (n + 1))).length ≤ n + 1 :=
          le_trans (List.length_take_le (Nat.min 1000 (n + 1))
            (rangeOf t.store (cursorKey beg nxt) fin)) hwle
        obtain ⟨c', heq, hc'⟩ := ih (some last.1)
          ((n + 1) - ((rangeOf t.store (cursorKey beg nxt) fin).take
            (Nat.min 1000 (n + 1))).length)
          (out ++ (rangeOf t.store (cursorKey beg nxt) fin).take (Nat.min 1000 (n + 1)))
          (scans + 1) (by omega)
        refine ⟨1 + c', ?_, by omega⟩
        rw [hunfold, heq]
        have hcur : cursorKey beg (some last.1) = last.1 ++ [0] := rfl
        have hafter := rangeOf_after hs hres
        rw [hcur, hafter]
        have hsplit := take_chunk_split (rangeOf t.store (cursorKey beg nxt) fin)
          (Nat.min 1000 (n + 1)) (n + 1) (Nat.min_le_right 1000 (n + 1))
        rw [List.append_assoc, hsplit]
        have hsc : scans + 1 + c' = scans + (1 + c') := by omega
        rw [hsc]

/-- C1: paged scan completeness.  For every sorted store whose in-range entries
number `N ≤ u32::MAX` and for `limit = u32::MAX`, `getr(beg..fin, limit)`
returns exactly the in-range entries in ascending key order, each exactly once,
with no duplicates and no gaps — in particular two consecutive stored keys `A`
and `A ++ [0x00]` are each returned exactly once, since the next batch starts
at the last key with `0x00` appended, and a non-empty batch smaller than the
1000-entry window does not stop paging (only an empty batch does).  The backend
`scan` contract is modelled from spec section 4.1. -/
theorem getr_complete (t : Transaction) (beg fin : Key)
    (hopen : t.closed = false) (hs : SortedStore t.store)
    (hN : (rangeOf t.store beg fin).length ≤ u32Max) :
    t.getr beg fin u32Max = .ok (rangeOf t.store beg fin) := by
  obtain ⟨c, heq, -⟩ := getrGo_spec t beg fin hopen hs u32Max Option.none u32Max [] 0
    (le_refl u32Max)
  rw [Transaction.getr, heq]
  simp [cursorKey, List.take_of_length_le hN]
  rfl

def storeW1 : Store := [([1], [10]), ([1, 0], [11]), ([2], [12])]

def txW1 : Transaction := { closed := false, store := storeW1, cache := [] }

theorem getr_complete_witness :
    txW1.getr [] [9] u32Max = .ok [([1], [10]), ([1, 0], [11]), ([2], [12])] := by
  have h := getr_complete txW1 [] [9] rfl (by decide) (by decide)
  rw [h]
  rfl

/-- C2: paged scan soundness.  For every range and every limit `L` on an open
transaction over a sorted store, `getr` succeeds with a list of length at most
`L` whose keys all lie in `[beg, fin)` in strictly ascending order; for
`L = 0` the result is empty and the loop issues no backend scan (the scan
counter of the loop stays 0).  The backend `scan` contract is modelled from
spec section 4.1. -/
theorem getr_sound (t : Transaction) (beg fin : Key) (L : Nat)
    (hopen : t.closed = false) (hs : SortedStore t.store) :
    ∃ out, t.getr beg fin L = .ok out
      ∧ out.length ≤ L
      ∧ (∀ kv ∈ out, keyLe beg kv.1 = true ∧ keyLt kv.1 fin = true)
      ∧ out.Pairwise (fun a b => keyLt a.1 b.1 = true)
      ∧ (L = 0 → out = [] ∧ getrGo t beg fin L Option.none L [] 0 = .ok ([], 0)) := by
  obtain ⟨c, heq, -⟩ := getrGo_spec t beg fin hopen hs L Option.none L [] 0 (le_refl L)
  refine ⟨(rangeOf t.store beg fin).take L, ?_, ?_, ?_, ?_, ?_⟩
  · rw [Transaction.getr, heq]
    simp [cursorKey]
    rfl
  · exact List.length_take_le L (rangeOf t.store beg fin)
  · intro kv hkv
    exact (mem_rangeOf.mp (List.mem_of_mem_take hkv)).2
  · exact List.Pairwise.sublist (List.take_sublist L (rangeOf t.store beg fin))
      (sortedStore_rangeOf hs beg fin)
  · intro hL
    subst hL
    exact ⟨by simp, rfl⟩

theorem getr_sound_witness :
    ∃ out, txW1.getr [1] [2] 2 = .ok out
      ∧ out.length ≤ 2
      ∧ (∀ kv ∈ out, keyLe [1] kv.1 = true ∧ keyLt kv.1 [2] = true)
      ∧ out.Pairwise (fun a b => keyLt a.1 b.1 = true)
      ∧ (2 = 0 → out = [] ∧ getrGo txW1 [1] [2] 2 Option.none 2 [] 0 = .ok ([], 0)) :=
  getr_sound txW1 [1] [2] 2 rfl (by decide)

/-- Loop of `Transaction.getp` (tx.rs 518-564): the source duplicates the
`getr` loop verbatim over the range ending at the prefix with `0xff` appended
(the cursor byte pushed between batches is written `0` there). -/
def getpGo (t : Transaction) (beg fin : Key) :
    Nat → Option Key → Nat → List (Key × Val) → Nat →
      Except Error (List (Key × Val) × Nat)
  | _, _, 0, out, scans => .ok (out, scans)
  | 0, _, _, out, scans => .ok (out, scans)
  | fuel + 1, nxt, num, out, scans =>
    match t.scan (cursorKey beg nxt) fin (Nat.min 1000 num) with
    | .error e => .error e
    | .ok res =>
      match res.getLast? with
      | Option.none => .ok (out, scans + 1)
      | some last =>
        getpGo t beg fin fuel (some last.1) (num - res.length) (out ++ res) (scans + 1)

/-- `Transaction.getp` (tx.rs 518-564): fetch all keys under a prefix, i.e.
the range from the prefix to `prefix.add(0xff)`. -/
def Transaction.getp (t : Transaction) (key : Key) (limit : Nat) :
    Except Error (List (Key × Val)) :=
  (getpGo t key (key ++ [255]) limit Option.none limit [] 0).map Prod.fst

/-- The duplicated prefix loop computes exactly what the range loop computes. -/
theorem getpGo_eq_getrGo (t : Transaction) (beg fin : Key) :
    ∀ fuel nxt num out scans,
      getpGo t beg fin fuel nxt num out scans = getrGo t beg fin fuel nxt num out scans := by
  intro fuel
  induction fuel with
  | zero =>
    intro nxt num out scans
    cases num <;> rfl
  | succ f ih =>
    intro nxt num out scans
    cases num with
    | zero => rfl
    | succ n =>
      rw [getpGo, getrGo]
      case x_5 => simp
      case x_5 => simp
      cases hsc : t.scan (cursorKey beg nxt) fin (Nat.min 1000 (n + 1)) with
      | error e => rfl
      | ok res =>
        cases hres : res.getLast? with
        | none => simp only [hres]
        | some last =>
          simp only [hres]
          exact ih (some last.1) (n + 1 - res.length) (out ++ res) (scans + 1)

/-- C3: for every prefix key and every limit, `getp(prefix, L)` returns exactly
the list returned by `getr` over the half-open range from the prefix to the
prefix with a `0xff` byte appended, with the same limit; consequently (on an
open transaction over a sorted store) every returned key starts with the
prefix. -/
theorem getp_refines_getr (t : Transaction) (key : Key) (L : Nat) :
    t.getp key L = t.getr key (key ++ [255]) L
    ∧ (t.closed = false → SortedStore t.store →
        ∀ out, t.getp key L = .ok out → ∀ kv ∈ out, key <+: kv.1) := by
  constructor
  · rw [Transaction.getp, Transaction.getr, getpGo_eq_getrGo]
  · intro hopen hs out hout kv hkv
    obtain ⟨c, heq, -⟩ := getrGo_spec t key (key ++ [255]) hopen hs L Option.none L [] 0
      (le_refl L)
    rw [Transaction.getp, getpGo_eq_getrGo, heq] at hout
    simp only [cursorKey, List.nil_append, Except.map, Except.ok.injEq] at hout
    have hout' : out = (rangeOf t.store key (key ++ [255])).take L := hout.symm
    rw [hout'] at hkv
    have hb := (mem_rangeOf.mp (List.mem_of_mem_take hkv)).2
    exact isPrefix_of_range hb.1 hb.2

def txW3 : Transaction :=
  { closed := false, store := [([112], [1]), ([112, 1], [2]), ([113], [3])], cache := [] }

theorem getp_refines_getr_witness :
    txW3.getp [112] 10 = txW3.getr [112] ([112] ++ [255]) 10
    ∧ ∀ kv ∈ [([112], ([1] : Val)), ([112, 1], [2])], [112] <+: kv.1 := by
  have h := getp_refines_getr txW3 [112] 10
  exact ⟨h.1, fun kv hkv => h.2 rfl (by decide) [([112], [1]), ([112, 1], [2])] rfl kv hkv⟩

/-- Sequential deletion of the keys of a batch: the body of the result loop in
`delr` and `delp` (tx.rs 502-511 and 601-610) calls `self.del(k)` on each
returned key in order. -/
def delKeys : Transaction → List Key → Except Error Transaction
  | t, [] => .ok t
  | t, k :: ks =>
    match t.del k with
    | .error e => .error e
    | .ok t' => delKeys t' ks

/-- Loop of `Transaction.delr` (tx.rs 469-514): same paging as `getr`, but each
returned key is deleted and no list is accumulated.  Fuel as in `getrGo`. -/
def delrGo (beg fin : Key) :
    Transaction → Nat → Option Key → Nat → Nat → Except Error (Transaction × Nat)
  | t, _, _, 0, scans => .ok (t, scans)
  | t, 0, _, _, scans => .ok (t, scans)
  | t, fuel + 1, nxt, num, scans =>
    match t.scan (cursorKey beg nxt) fin (Nat.min 1000 num) with
    | .error e => .error e
    | .ok res =>
      match res.getLast? with
      | Option.none => .ok (t, scans + 1)
      | some last =>
        match delKeys t (res.map Prod.fst) with
        | .error e => .error e
        | .ok t' => delrGo beg fin t' fuel (some last.1) (num - res.length) (scans + 1)

/-- `Transaction.delr` (tx.rs 469-514). -/
def Transaction.delr (t : Transaction) (beg fin : Key) (limit : Nat) :
    Except Error Transaction :=
  (delrGo beg fin t limit Option.none limit 0).map Prod.fst

/-- Loop of `Transaction.delp` (tx.rs 568-613): the source duplicates the
`delr` loop verbatim over the range ending at the prefix with `0xff` appended. -/
def delpGo (beg fin : Key) :
    Transaction → Nat → Option Key → Nat → Nat → Except Error (Transaction × Nat)
  | t, _, _, 0, scans => .ok (t, scans)
  | t, 0, _, _, scans => .ok (t, scans)
  | t, fuel + 1, nxt, num, scans =>
    match t.scan (cursorKey beg nxt) fin (Nat.min 1000 num) with
    | .error e => .error e
    | .ok res =>
      match res.getLast? with
      | Option.none => .ok (t, scans + 1)
      | some last =>
        match delKeys t (res.map Prod.fst) with
        | .error e => .error e
        | .ok t' => delpGo beg fin t' fuel (some last.1) (num - res.length) (scans + 1)

/-- `Transaction.delp` (tx.rs 568-613): delete all keys under a prefix, i.e.
the range from the prefix to `prefix.add(0xff)`. -/
def Transaction.delp (t : Transaction) (key : Key) (limit : Nat) :
    Except Error Transaction :=
  (delpGo key (key ++ [255]) t limit Option.none limit 0).map Prod.fst

/-- The duplicated prefix deletion loop computes what the range deletion loop
computes. -/
theorem delpGo_eq_delrGo (beg fin : Key) :
    ∀ fuel (t : Transaction) nxt num scans,
      delpGo beg fin t fuel nxt num scans = delrGo beg fin t fuel nxt num scans := by
  intro fuel
  induction fuel with
  | zero =>
    intro t nxt num scans
    cases num <;> rfl
  | succ f ih =>
    intro t nxt num scans
    cases num with
    | zero => rfl
    | succ n =>
      rw [delpGo, delrGo]
      case x_5 => simp
      case x_5 => simp
      cases hsc : t.scan (cursorKey beg nxt) fin (Nat.min 1000 (n + 1)) with
      | error e => rfl
      | ok res =>
        cases hres : res.getLast? with
        | none => simp only [hres]
        | some last =>
          simp only [hres]
          cases hdel : delKeys t (res.map Prod.fst) with
          | error e => rfl
          | ok t' => exact ih t' (some last.1) (n + 1 - res.length) (scans + 1)

theorem bandl {a b : Bool} (h : (a && b) = true) : a = true := by
  cases a
  · cases h
  · rfl

theorem bandr {a b : Bool} (h : (a && b) = true) : b = true := by
  cases a
  · cases h
  · exact h

theorem bool_eq_false {b : Bool} (h : ¬ b = true) : b = false := by
  cases b
  · rfl
  · exact absurd rfl h

theorem delKeys_open : ∀ (ks : List Key) (t : Transaction), t.closed = false →
    delKeys t ks
      = .ok { t with store := t.store.filter (fun kv => !(decide (kv.1 ∈ ks))) } := by
  intro ks
  induction ks with
  | nil =>
    intro t ht
    simp [delKeys]
  | cons k ks ih =>
    intro t ht
    have hdel : t.del k = .ok { t with store := storeDel t.store k } := by
      simp [Transaction.del, ht]
    simp only [delKeys, hdel]
    rw [ih { t with store := storeDel t.store k } ht]
    simp only [storeDel, List.filter_filter]
    congr 2
    apply List.filter_congr
    intro x _
    by_cases h1 : x.1 = k
    · simp [h1]
    · by_cases h2 : x.1 ∈ ks <;> simp [h1, h2]

theorem take_length_take {α : Type} (F : List α) (w : Nat) :
    F.take (F.take w).length = F.take w := by
  rw [List.length_take]
  rcases Nat.le_total w F.length with h | h
  · rw [Nat.min_eq_left h]
  · rw [Nat.min_eq_right h, List.take_length, List.take_of_length_le h]

/-- Keys strictly above the last element of a batch do not occur in the batch. -/
theorem res_keys_below {store : Store} (hs : SortedStore store) {s fin : Key} {w : Nat}
    {last : Key × Val} (hres : ((rangeOf store s fin).take w).getLast? = some last) :
    ∀ x : Key × Val, keyLt last.1 x.1 = true →
      x.1 ∉ ((rangeOf store s fin).take w).map Prod.fst := by
  intro x hlt hmem
  obtain ⟨y, hy, hyx⟩ := List.mem_map.mp hmem
  have hsres : SortedStore ((rangeOf store s fin).take w) :=
    List.Pairwise.sublist (List.take_sublist w (rangeOf store s fin))
      (sortedStore_rangeOf hs s fin)
  have hflat := sorted_getLast?_not_lt hsres hres hy
  rw [hyx] at hflat
  rw [hlt] at hflat
  cases hflat

/-- Deleting a batch does not change the entries above the new cursor. -/
theorem delr_range_step {store : Store} (hs : SortedStore store) {s fin : Key} {w : Nat}
    {last : Key × Val} (hres : ((rangeOf store s fin).take w).getLast? = some last) :
    rangeOf (store.filter
        (fun kv => !(decide (kv.1 ∈ ((rangeOf store s fin).take w).map Prod.fst))))
        (last.1 ++ [0]) fin
      = (rangeOf store s fin).drop ((rangeOf store s fin).take w).length := by
  rw [← rangeOf_after hs hres]
  show (store.filter
      (fun kv => !(decide (kv.1 ∈ ((rangeOf store s fin).take w).map Prod.fst)))).filter
      (fun kv => keyLe (last.1 ++ [0]) kv.1 && keyLt kv.1 fin)
    = rangeOf store (last.1 ++ [0]) fin
  rw [List.filter_filter]
  apply List.filter_congr
  intro x _
  by_cases hp : (keyLe (last.1 ++ [0]) x.1 && keyLt x.1 fin) = true
  · have hlt : keyLt last.1 x.1 = true := by
      have h1 := bandl hp
      rw [keyLe, keyLt_append_zero, Bool.not_not] at h1
      exact h1
    have hnm : decide (x.1 ∈ ((rangeOf store s fin).take w).map Prod.fst) = false :=
      decide_eq_false (res_keys_below hs hres x hlt)
    rw [hp, hnm]
    rfl
  · rw [bool_eq_false hp]
    rw [Bool.false_and]

/-- Composing the batch deletion with the recursive deletion of the tail range
deletes exactly the in-range entries. -/
theorem delr_filter_step {store : Store} (hs : SortedStore store) {s fin : Key} {w : Nat}
    {last : Key × Val} (hres : ((rangeOf store s fin).take w).getLast? = some last) :
    (store.filter
        (fun kv => !(decide (kv.1 ∈ ((rangeOf store s fin).take w).map Prod.fst)))).filter
        (fun kv => !(keyLe (last.1 ++ [0]) kv.1 && keyLt kv.1 fin))
      = store.filter (fun kv => !(keyLe s kv.1 && keyLt kv.1 fin)) := by
  have hmemF : last ∈ rangeOf store s fin :=
    List.mem_of_mem_take (List.mem_of_getLast?_eq_some hres)
  have hsle : keyLe s last.1 = true := (mem_rangeOf.mp hmemF).2.1
  have hsplitF : (rangeOf store s fin).take ((rangeOf store s fin).take w).length
      = (rangeOf store s fin).take w := take_length_take (rangeOf store s fin) w
  rw [List.filter_filter]
  apply List.filter_congr
  intro x hx
  by_cases hp : (keyLe s x.1 && keyLt x.1 fin) = true
  · -- the entry is in range: it is either in the batch or above the cursor
    have hxF : x ∈ rangeOf store s fin := by
      rw [mem_rangeOf]
      exact ⟨hx, bandl hp, bandr hp⟩
    have hxsplit : x ∈ (rangeOf store s fin).take ((rangeOf store s fin).take w).length
        ∨ x ∈ (rangeOf store s fin).drop ((rangeOf store s fin).take w).length := by
      rw [← List.mem_append, List.take_append_drop]
      exact hxF
    rw [hp]
    rcases hxsplit with hin | hin
    · rw [hsplitF] at hin
      have hq : decide (x.1 ∈ ((rangeOf store s fin).take w).map Prod.fst) = true :=
        decide_eq_true (List.mem_map.mpr ⟨x, hin, rfl⟩)
      rw [hq]
      simp
    · rw [← rangeOf_after hs hres] at hin
      have hpx := (mem_rangeOf.mp hin).2
      have hcur : (keyLe (last.1 ++ [0]) x.1 && keyLt x.1 fin) = true := by
        rw [hpx.1, hpx.2]; rfl
      rw [hcur]
      simp
  · -- the entry is out of range: it is neither in the batch nor above the cursor
    have hq : decide (x.1 ∈ ((rangeOf store s fin).take w).map Prod.fst) = false := by
      apply decide_eq_false
      intro hmem
      obtain ⟨y, hy, hyx⟩ := List.mem_map.mp hmem
      have hyF : y ∈ rangeOf store s fin := List.mem_of_mem_take hy
      have hpy := (mem_rangeOf.mp hyF).2
      rw [hyx] at hpy
      rw [hpy.1, hpy.2] at hp
      exact hp rfl
    have hp' : (keyLe (last.1 ++ [0]) x.1 && keyLt x.1 fin) = false := by
      apply bool_eq_false
      intro hc'
      have hlt : keyLt last.1 x.1 = true := by
        have h1 := bandl hc'
        rw [keyLe, keyLt_append_zero, Bool.not_not] at h1
        exact h1
      have hsx : keyLt s x.1 = true := keyLe_keyLt_trans hsle hlt
      rw [keyLe_of_keyLt hsx, bandr hc'] at hp
      exact hp rfl
    rw [bool_eq_false hp, hp', hq]
    rfl

theorem filter_not_range_of_nil {store : Store} {s fin : Key}
    (h : rangeOf store s fin = []) :
    store.filter (fun kv => !(keyLe s kv.1 && keyLt kv.1 fin)) = store := by
  apply List.filter_eq_self.mpr
  intro x hxm
  have hx := (List.filter_eq_nil_iff.mp h) x hxm
  rw [bool_eq_false hx]
  rfl

/-- On an open transaction over a sorted store whose in-range entries fit in the
budget, the `delr` loop deletes exactly the in-range entries, leaving the
closed flag and the cache untouched, and issues at most `num` scans. -/
theorem delrGo_spec (beg fin : Key) :
    ∀ fuel (t : Transaction) nxt num scans, t.closed = false → SortedStore t.store →
      num ≤ fuel → (rangeOf t.store (cursorKey beg nxt) fin).length ≤ num →
      ∃ c, delrGo beg fin t fuel nxt num scans
          = .ok ({ t with store := (t.store.filter
              (fun kv => !(keyLe (cursorKey beg nxt) kv.1 && keyLt kv.1 fin))) }, scans + c)
        ∧ c ≤ num := by
  intro fuel
  induction fuel with
  | zero =>
    intro t nxt num scans hopen hs hnum hcnt
    have hz : num = 0 := Nat.le_zero.mp hnum
    subst hz
    have hFnil : rangeOf t.store (cursorKey beg nxt) fin = [] :=
      List.length_eq_zero.mp (Nat.le_zero.mp hcnt)
    refine ⟨0, ?_, le_refl 0⟩
    rw [show delrGo beg fin t 0 nxt 0 scans = .ok (t, scans) from rfl,
      filter_not_range_of_nil hFnil]
    rfl
  | succ f ih =>
    intro t nxt num scans hopen hs hnum hcnt
    cases num with
    | zero =>
      have hFnil : rangeOf t.store (cursorKey beg nxt) fin = [] :=
        List.length_eq_zero.mp (Nat.le_zero.mp hcnt)
      refine ⟨0, ?_, le_refl 0⟩
      rw [show delrGo beg fin t (f + 1) nxt 0 scans = .ok (t, scans) from rfl,
        filter_not_range_of_nil hFnil]
      rfl
    | succ n =>
      have hscan : t.scan (cursorKey beg nxt) fin (Nat.min 1000 (n + 1))
          = .ok ((rangeOf t.store (cursorKey beg nxt) fin).take (Nat.min 1000 (n + 1))) := by
        simp [Transaction.scan, hopen, scanStore]
      have hunfold : delrGo beg fin t (f + 1) nxt (n + 1) scans
          = match ((rangeOf t.store (cursorKey beg nxt) fin).take
              (Nat.min 1000 (n + 1))).getLast? with
            | Option.none => .ok (t, scans + 1)
            | some last =>
              match delKeys t (((rangeOf t.store (cursorKey beg nxt) fin).take
                  (Nat.min 1000 (n + 1))).map Prod.fst) with
              | .error e => .error e
              | .ok t' =>
                delrGo beg fin t' f (some last.1)
                  ((n + 1) - ((rangeOf t.store (cursorKey beg nxt) fin).take
                    (Nat.min 1000 (n + 1))).length) (scans + 1) := by
        rw [delrGo, hscan]
        simp
      cases hres : ((rangeOf t.store (cursorKey beg nxt) fin).take
          (Nat.min 1000 (n + 1))).getLast? with
      | none =>
        simp only [hres] at hunfold
        have hFnil : rangeOf t.store (cursorKey beg nxt) fin = [] := by
          have := List.getLast?_eq_none_iff.mp hres
          rcases List.take_eq_nil_iff.mp this with h | h
          · exfalso
            have hpos : 0 < Nat.min 1000 (n + 1) := Nat.lt_min.mpr ⟨by omega, by omega⟩
            rw [h] at hpos
            exact Nat.lt_irrefl 0 hpos
          · exact h
        refine ⟨1, ?_, by omega⟩
        rw [hunfold, filter_not_range_of_nil hFnil]
      | some last =>
        simp only [hres] at hunfold
        have hdel := delKeys_open
          (((rangeOf t.store (cursorKey beg nxt) fin).take
            (Nat.min 1000 (n + 1))).map Prod.fst) t hopen
        simp only [hdel] at hunfold
        have hlen1 : 1 ≤ ((rangeOf t.store (cursorKey beg nxt) fin).take
            (Nat.min 1000 (n + 1))).length := by
          have hne : ((rangeOf t.store (cursorKey beg nxt) fin).take
              (Nat.min 1000 (n + 1))) ≠ [] := by
            intro hnil
            rw [hnil] at hres
            simp at hres
          have := List.length_pos.mpr hne
          omega
        have hwle : Nat.min 1000 (n + 1) ≤ n + 1 := Nat.min_le_right 1000 (n + 1)
        have hlenle : ((rangeOf t.store (cursorKey beg nxt) fin).take
            (Nat.min 1000 (n + 1))).length ≤ n + 1 :=
          le_trans (List.length_take_le (Nat.min 1000 (n + 1))
            (rangeOf t.store (cursorKey beg nxt) fin)) hwle
        have hopen1 : ({ t with store := (t.store.filter
            (fun kv => !(decide (kv.1 ∈ ((rangeOf t.store (cursorKey beg nxt) fin).take
              (Nat.min 1000 (n + 1))).map Prod.fst)))) } : Transaction).closed = false := hopen
        have hs1 : SortedStore (t.store.filter
            (fun kv => !(decide (kv.1 ∈ ((rangeOf t.store (cursorKey beg nxt) fin).take
              (Nat.min 1000 (n + 1))).map Prod.fst)))) :=
          List.Pairwise.sublist (List.filter_sublist t.store) hs
        have hrange1 : rangeOf (t.store.filter
            (fun kv => !(decide (kv.1 ∈ ((rangeOf t.store (cursorKey beg nxt) fin).take
              (Nat.min 1000 (n + 1))).map Prod.fst)))) (last.1 ++ [0]) fin
            = (rangeOf t.store (cursorKey beg nxt) fin).drop
                ((rangeOf t.store (cursorKey beg nxt) fin).take (Nat.min 1000 (n + 1))).length :=
          delr_range_step hs hres
        have hcnt1 : (rangeOf (t.store.filter
            (fun kv => !(decide (kv.1 ∈ ((rangeOf t.store (cursorKey beg nxt) fin).take
              (Nat.min 1000 (n + 1))).map Prod.fst)))) (cursorKey beg (some last.1)) fin).length
            ≤ (n + 1) - ((rangeOf t.store (cursorKey beg nxt) fin).take
              (Nat.min 1000 (n + 1))).length := by
          rw [show cursorKey beg (some last.1) = last.1 ++ [0] from rfl, hrange1,
            List.length_drop]
          omega
        obtain ⟨c', heq, hc'⟩ := ih
          { t with store := (t.store.filter
              (fun kv => !(decide (kv.1 ∈ ((rangeOf t.store (cursorKey beg nxt) fin).take
                (Nat.min 1000 (n + 1))).map Prod.fst)))) }
          (some last.1)
          ((n + 1) - ((rangeOf t.store (cursorKey beg nxt) fin).take
            (Nat.min 1000 (n + 1))).length)
          (scans + 1) hopen1 hs1 (by omega) hcnt1
        refine ⟨1 + c', ?_, by omega⟩
        rw [hunfold, heq]
        have hstep : (t.store.filter
            (fun kv => !(decide (kv.1 ∈ ((rangeOf t.store (cursorKey beg nxt) fin).take
              (Nat.min 1000 (n + 1))).map Prod.fst)))).filter
            (fun kv => !(keyLe (cursorKey beg (some last.1)) kv.1 && keyLt kv.1 fin))
            = t.store.filter (fun kv => !(keyLe (cursorKey beg nxt) kv.1 && keyLt kv.1 fin)) := by
          rw [show cursorKey beg (some last.1) = last.1 ++ [0] from rfl]
          exact delr_filter_step hs hres
        rw [hstep]
        have hsc : scans + 1 + c' = scans + (1 + c') := by omega
        rw [hsc]

/-- On an open transaction the `getr` loop always succeeds and issues at most
`num` backend scans, whatever the store contents (the batch length never
exceeds the amount requested). -/
theorem getrGo_scans (t : Transaction) (beg fin : Key) (hopen : t.closed = false) :
    ∀ fuel nxt num out scans, num ≤ fuel →
      ∃ o c, getrGo t beg fin fuel nxt num out scans = .ok (o, scans + c) ∧ c ≤ num := by
  intro fuel
  induction fuel with
  | zero =>
    intro nxt num out scans hnum
    have hz : num = 0 := Nat.le_zero.mp hnum
    subst hz
    exact ⟨out, 0, rfl, le_refl 0⟩
  | succ f ih =>
    intro nxt num out scans hnum
    cases num with
    | zero => exact ⟨out, 0, rfl, le_refl 0⟩
    | succ n =>
      have hscan : t.scan (cursorKey beg nxt) fin (Nat.min 1000 (n + 1))
          = .ok ((rangeOf t.store (cursorKey beg nxt) fin).take (Nat.min 1000 (n + 1))) := by
        simp [Transaction.scan, hopen, scanStore]
      have hunfold : getrGo t beg fin (f + 1) nxt (n + 1) out scans
          = match ((rangeOf t.store (cursorKey beg nxt) fin).take
              (Nat.min 1000 (n + 1))).getLast? with
            | Option.none => .ok (out, scans + 1)
            | some last =>
              getrGo t beg fin f (some last.1)
                ((n + 1) - ((rangeOf t.store (cursorKey beg nxt) fin).take
                  (Nat.min 1000 (n + 1))).length)
                (out ++ (rangeOf t.store (cursorKey beg nxt) fin).take
                  (Nat.min 1000 (n + 1))) (scans + 1) := by
        rw [getrGo, hscan]
        simp
      cases hres : ((rangeOf t.store (cursorKey beg nxt) fin).take
          (Nat.min 1000 (n + 1))).getLast? with
      | none =>
        simp only [hres] at hunfold
        exact ⟨out, 1, by rw [hunfold], by omega⟩
      | some last =>
        simp only [hres] at hunfold
        have hlen1 : 1 ≤ ((rangeOf t.store (cursorKey beg nxt) fin).take
            (Nat.min 1000 (n + 1))).length := by
          have hne : ((rangeOf t.store (cursorKey beg nxt) fin).take
              (Nat.min 1000 (n + 1))) ≠ [] := by
            intro hnil
            rw [hnil] at hres
            simp at hres
          have := List.length_pos.mpr hne
          omega
        obtain ⟨o, c', heq, hc'⟩ := ih (some last.1)
          ((n + 1) - ((rangeOf t.store (cursorKey beg nxt) fin).take
            (Nat.min 1000 (n + 1))).length)
          (out ++ (rangeOf t.store (cursorKey beg nxt) fin).take (Nat.min 1000 (n + 1)))
          (scans + 1) (by omega)
        refine ⟨o, 1 + c', ?_, ?_⟩
        · rw [hunfold, heq]
          have hsc : scans + 1 + c' = scans + (1 + c') := by omega
          rw [hsc]
        · have hwle : Nat.min 1000 (n + 1) ≤ n + 1 := Nat.min_le_right 1000 (n + 1)
          have hlenle := le_trans (List.length_take_le (Nat.min 1000 (n + 1))
            (rangeOf t.store (cursorKey beg nxt) fin)) hwle
          omega

/-- On an open transaction the `delr` loop always succeeds and issues at most
`num` backend scans, whatever the store contents. -/
theorem delrGo_scans (beg fin : Key) :
    ∀ fuel (t : Transaction) nxt num scans, t.closed = false → num ≤ fuel →
      ∃ t' c, delrGo beg fin t fuel nxt num scans = .ok (t', scans + c) ∧ c ≤ num := by
  intro fuel
  induction fuel with
  | zero =>
    intro t nxt num scans hopen hnum
    have hz : num = 0 := Nat.le_zero.mp hnum
    subst hz
    exact ⟨t, 0, rfl, le_refl 0⟩
  | succ f ih =>
    intro t nxt num scans hopen hnum
    cases num with
    | zero => exact ⟨t, 0, rfl, le_refl 0⟩
    | succ n =>
      have hscan : t.scan (cursorKey beg nxt) fin (Nat.min 1000 (n + 1))
          = .ok ((rangeOf t.store (cursorKey beg nxt) fin).take (Nat.min 1000 (n + 1))) := by
        simp [Transaction.scan, hopen, scanStore]
      have hunfold : delrGo beg fin t (f + 1) nxt (n + 1) scans
          = match ((rangeOf t.store (cursorKey beg nxt) fin).take
              (Nat.min 1000 (n + 1))).getLast? with
            | Option.none => .ok (t, scans + 1)
            | some last =>
              match delKeys t (((rangeOf t.store (cursorKey beg nxt) fin).take
                  (Nat.min 1000 (n + 1))).map Prod.fst) with
              | .error e => .error e
              | .ok t' =>
                delrGo beg fin t' f (some last.1)
                  ((n + 1) - ((rangeOf t.store (cursorKey beg nxt) fin).take
                    (Nat.min 1000 (n + 1))).length) (scans + 1) := by
        rw [delrGo, hscan]
        simp
      cases hres : ((rangeOf t.store (cursorKey beg nxt) fin).take
          (Nat.min 1000 (n + 1))).getLast? with
      | none =>
        simp only [hres] at hunfold
        exact ⟨t, 1, by rw [hunfold], by omega⟩
      | some last =>
        simp only [hres] at hunfold
        have hdel := delKeys_open
          (((rangeOf t.store (cursorKey beg nxt) fin).take
            (Nat.min 1000 (n + 1))).map Prod.fst) t hopen
        simp only [hdel] at hunfold
        have hlen1 : 1 ≤ ((rangeOf t.store (cursorKey beg nxt) fin).take
            (Nat.min 1000 (n + 1))).length := by
          have hne : ((rangeOf t.store (cursorKey beg nxt) fin).take
              (Nat.min 1000 (n + 1))) ≠ [] := by
            intro hnil
            rw [hnil] at hres
            simp at hres
          have := List.length_pos.mpr hne
          omega
        obtain ⟨t', c', heq, hc'⟩ := ih
          { t with store := (t.store.filter
              (fun kv => !(decide (kv.1 ∈ ((rangeOf t.store (cursorKey beg nxt) fin).take
                (Nat.min 1000 (n + 1))).map Prod.fst)))) }
          (some last.1)
          ((n + 1) - ((rangeOf t.store (cursorKey beg nxt) fin).take
            (Nat.min 1000 (n + 1))).length)
          (scans + 1) hopen (by omega)
        refine ⟨t', 1 + c', ?_, ?_⟩
        · rw [hunfold, heq]
          have hsc : scans + 1 + c' = scans + (1 + c') := by omega
          rw [hsc]
        · have hwle : Nat.min 1000 (n + 1) ≤ n + 1 := Nat.min_le_right 1000 (n + 1)
          have hlenle := le_trans (List.length_take_le (Nat.min 1000 (n + 1))
            (rangeOf t.store (cursorKey beg nxt) fin)) hwle
          omega

/-- C7: prefix deletion is exact and frame-preserving.  On an open transaction
over a sorted store (small enough for the `u32::MAX` budget),
`delp(prefix, u32::MAX)` deletes exactly the entries whose key lies in the
half-open range from the prefix to the prefix with a `0xff` byte appended;
every entry outside that range — key and value — is left unchanged, as are the
closed flag and the cache. -/
theorem delp_exact (t : Transaction) (p : Key)
    (hopen : t.closed = false) (hs : SortedStore t.store)
    (hN : (rangeOf t.store p (p ++ [255])).length ≤ u32Max) :
    t.delp p u32Max = .ok { t with store := (t.store.filter
        (fun kv => !(keyLe p kv.1 && keyLt kv.1 (p ++ [255])))) } := by
  obtain ⟨c, heq, -⟩ := delrGo_spec p (p ++ [255]) u32Max t Option.none u32Max 0
    hopen hs (le_refl u32Max) hN
  rw [Transaction.delp, delpGo_eq_delrGo, heq]
  rfl

def txW7 : Transaction :=
  { closed := false
    store := [([112, 47, 97], [1]), ([112, 47, 98], [2]), ([113, 47, 97], [3])]
    cache := [] }

theorem delp_exact_witness :
    txW7.delp [112, 47] u32Max = .ok { txW7 with store := [([113, 47, 97], [3])] } := by
  have h := delp_exact txW7 [112, 47] rfl (by decide) (by decide)
  rw [h]
  rfl

/-- C10: termination of the paged engines.  The loops of `getr`, `delr`, `getp`
and `delp` are total functions of their inputs; under the backend contract that
each scan returns at most the number of entries requested (spec section 4.1,
built into the store model), every non-empty batch consumes at least one unit
of the remaining budget and an empty batch exits the loop, so on an open
transaction each engine performs at most `limit` scan iterations. -/
theorem paged_engine_terminates (t : Transaction) (beg fin p : Key) (L : Nat)
    (hopen : t.closed = false) :
    (∃ out c, getrGo t beg fin L Option.none L [] 0 = .ok (out, c) ∧ c ≤ L)
    ∧ (∃ t' c, delrGo beg fin t L Option.none L 0 = .ok (t', c) ∧ c ≤ L)
    ∧ (∃ out c, getpGo t p (p ++ [255]) L Option.none L [] 0 = .ok (out, c) ∧ c ≤ L)
    ∧ (∃ t' c, delpGo p (p ++ [255]) t L Option.none L 0 = .ok (t', c) ∧ c ≤ L) := by
  refine ⟨?_, ?_, ?_, ?_⟩
  · obtain ⟨o, c, h, hc⟩ := getrGo_scans t beg fin hopen L Option.none L [] 0 (le_refl L)
    rw [Nat.zero_add] at h
    exact ⟨o, c, h, hc⟩
  · obtain ⟨t', c, h, hc⟩ := delrGo_scans beg fin L t Option.none L 0 hopen (le_refl L)
    rw [Nat.zero_add] at h
    exact ⟨t', c, h, hc⟩
  · obtain ⟨o, c, h, hc⟩ := getrGo_scans t p (p ++ [255]) hopen L Option.none L [] 0
      (le_refl L)
    rw [Nat.zero_add] at h
    rw [getpGo_eq_getrGo]
    exact ⟨o, c, h, hc⟩
  · obtain ⟨t', c, h, hc⟩ := delrGo_scans p (p ++ [255]) L t Option.none L 0 hopen
      (le_refl L)
    rw [Nat.zero_add] at h
    rw [delpGo_eq_delrGo]
    exact ⟨t', c, h, hc⟩

theorem paged_engine_terminates_witness :
    (∃ out c, getrGo txW1 [] [9] 5 Option.none 5 [] 0 = .ok (out, c) ∧ c ≤ 5)
    ∧ (∃ t' c, delrGo [] [9] txW1 5 Option.none 5 0 = .ok (t', c) ∧ c ≤ 5)
    ∧ (∃ out c, getpGo txW1 [1] ([1] ++ [255]) 5 Option.none 5 [] 0 = .ok (out, c) ∧ c ≤ 5)
    ∧ (∃ t' c, delpGo [1] ([1] ++ [255]) txW1 5 Option.none 5 0 = .ok (t', c) ∧ c ≤ 5) :=
  paged_engine_terminates txW1 [] [9] [1] 5 rfl

/-! ## Catalog list accessors (read-through cache) -/

/-- `Transaction.all_ns` (tx.rs 615-631): if the list key is cached, return the
shared list (`cache.exi` then `cache.get`; a wrong variant is the
`unreachable!()` panic); otherwise fetch the whole range with
`getr(.., u32::MAX)`, decode, insert into the cache and return. -/
def Transaction.all_ns (t : Transaction) :
    Except Error (List DefineNamespaceStatement × Transaction) :=
  match cacheGet t.cache nsListBeg with
  | some (Entry.Nss v) => .ok (v, t)
  | some _ => .error .Unreachable
  | Option.none =>
    match t.getr nsListBeg nsListFin u32Max with
    | .error e => .error e
    | .ok val =>
      .ok (val.map (fun kv => decodeNs kv.2),
        { t with cache := (cacheSet t.cache nsListBeg
            (Entry.Nss (val.map (fun kv => decodeNs kv.2)))) })

/-- `Transaction.all_dl` (tx.rs 687-707), same template as `all_ns`. -/
def Transaction.all_dl (t : Transaction) (ns db : String) :
    Except Error (List DefineLoginStatement × Transaction) :=
  match cacheGet t.cache (dlListBeg ns db) with
  | some (Entry.Dls v) => .ok (v, t)
  | some _ => .error .Unreachable
  | Option.none =>
    match t.getr (dlListBeg ns db) (dlListFin ns db) u32Max with
    | .error e => .error e
    | .ok val =>
      .ok (val.map (fun kv => decodeDl kv.2),
        { t with cache := (cacheSet t.cache (dlListBeg ns db)
            (Entry.Dls (val.map (fun kv => decodeDl kv.2)))) })

/-- `Transaction.all_dt` (tx.rs 709-729), same template as `all_ns`. -/
def Transaction.all_dt (t : Transaction) (ns db : String) :
    Except Error (List DefineTokenStatement × Transaction) :=
  match cacheGet t.cache (dtListBeg ns db) with
  | some (Entry.Dts v) => .ok (v, t)
  | some _ => .error .Unreachable
  | Option.none =>
    match t.getr (dtListBeg ns db) (dtListFin ns db) u32Max with
    | .error e => .error e
    | .ok val =>
      .ok (val.map (fun kv => decodeDt kv.2),
        { t with cache := (cacheSet t.cache (dtListBeg ns db)
            (Entry.Dts (val.map (fun kv => decodeDt kv.2)))) })

/-- `Transaction.all_sc` (tx.rs 731-751), same template as `all_ns`. -/
def Transaction.all_sc (t : Transaction) (ns db : String) :
    Except Error (List DefineScopeStatement × Transaction) :=
  match cacheGet t.cache (scListBeg ns db) with
  | some (Entry.Scs v) => .ok (v, t)
  | some _ => .error .Unreachable
  | Option.none =>
    match t.getr (scListBeg ns db) (scListFin ns db) u32Max with
    | .error e => .error e
    | .ok val =>
      .ok (val.map (fun kv => decodeSc kv.2),
        { t with cache := (cacheSet t.cache (scListBeg ns db)
            (Entry.Scs (val.map (fun kv => decodeSc kv.2)))) })

/-- `Transaction.all_tb` (tx.rs 776-796), same template as `all_ns`. -/
def Transaction.all_tb (t : Transaction) (ns db : String) :
    Except Error (List DefineTableStatement × Transaction) :=
  match cacheGet t.cache (tbListBeg ns db) with
  | some (Entry.Tbs v) => .ok (v, t)
  | some _ => .error .Unreachable
  | Option.none =>
    match t.getr (tbListBeg ns db) (tbListFin ns db) u32Max with
    | .error e => .error e
    | .ok val =>
      .ok (val.map (fun kv => decodeTb kv.2),
        { t with cache := (cacheSet t.cache (tbListBeg ns db)
            (Entry.Tbs (val.map (fun kv => decodeTb kv.2)))) })

/-- `Transaction.all_fd` (tx.rs 821-842), same template as `all_ns`. -/
def Transaction.all_fd (t : Transaction) (ns db tb : String) :
    Except Error (List DefineFieldStatement × Transaction) :=
  match cacheGet t.cache (fdListBeg ns db tb) with
  | some (Entry.Fds v) => .ok (v, t)
  | some _ => .error .Unreachable
  | Option.none =>
    match t.getr (fdListBeg ns db tb) (fdListFin ns db tb) u32Max with
    | .error e => .error e
    | .ok val =>
      .ok (val.map (fun kv => decodeFd kv.2),
        { t with cache := (cacheSet t.cache (fdListBeg ns db tb)
            (Entry.Fds (val.map (fun kv => decodeFd kv.2)))) })

/-- `Transaction.all_ix` (tx.rs 844-865), same template as `all_ns`. -/
def Transaction.all_ix (t : Transaction) (ns db tb : String) :
    Except Error (List DefineIndexStatement × Transaction) :=
  match cacheGet t.cache (ixListBeg ns db tb) with
  | some (Entry.Ixs v) => .ok (v, t)
  | some _ => .error .Unreachable
  | Option.none =>
    match t.getr (ixListBeg ns db tb) (ixListFin ns db tb) u32Max with
    | .error e => .error e
    | .ok val =>
      .ok (val.map (fun kv => decodeIx kv.2),
        { t with cache := (cacheSet t.cache (ixListBeg ns db tb)
            (Entry.Ixs (val.map (fun kv => decodeIx kv.2)))) })

/-- `Transaction.all_ev` (tx.rs 798-819), same template as `all_ns`. -/
def Transaction.all_ev (t : Transaction) (ns db tb : String) :
    Except Error (List DefineEventStatement × Transaction) :=
  match cacheGet t.cache (evListBeg ns db tb) with
  | some (Entry.Evs v) => .ok (v, t)
  | some _ => .error .Unreachable
  | Option.none =>
    match t.getr (evListBeg ns db tb) (evListFin ns db tb) u32Max with
    | .error e => .error e
    | .ok val =>
      .ok (val.map (fun kv => decodeEv kv.2),
        { t with cache := (cacheSet t.cache (evListBeg ns db tb)
            (Entry.Evs (val.map (fun kv => decodeEv kv.2)))) })

/-- C9: cached list accessor idempotence, for the two cited accessors `all_ns`
and `all_tb`: if a first call in a transaction succeeds with list `v` and
transaction state `t'`, a second call with the same scope arguments succeeds
with the same list and the same state (no further backend scan), served from
the cache, whose list key now holds exactly the shared list. -/
theorem all_accessors_idempotent (t s : Transaction) (ns db : String)
    (v : List DefineNamespaceStatement) (w : List DefineTableStatement)
    (t' s' : Transaction)
    (h1 : t.all_ns = .ok (v, t')) (h2 : s.all_tb ns db = .ok (w, s')) :
    t'.all_ns = .ok (v, t')
    ∧ cacheGet t'.cache nsListBeg = some (Entry.Nss v)
    ∧ s'.all_tb ns db = .ok (w, s')
    ∧ cacheGet s'.cache (tbListBeg ns db) = some (Entry.Tbs w) := by
  have key1 : t'.all_ns = .ok (v, t')
      ∧ cacheGet t'.cache nsListBeg = some (Entry.Nss v) := by
    cases hc : cacheGet t.cache nsListBeg with
    | none =>
      simp only [Transaction.all_ns, hc] at h1
      cases hg : t.getr nsListBeg nsListFin u32Max with
      | error e =>
        simp only [hg] at h1
        cases h1
      | ok val =>
        simp only [hg] at h1
        simp only [Except.ok.injEq, Prod.mk.injEq] at h1
        obtain ⟨hv, ht'⟩ := h1
        rw [← ht']
        have hcache : cacheGet
            ({ t with cache := (cacheSet t.cache nsListBeg
              (Entry.Nss (val.map (fun kv => decodeNs kv.2)))) } : Transaction).cache
            nsListBeg = some (Entry.Nss v) := by
          rw [show ({ t with cache := (cacheSet t.cache nsListBeg
              (Entry.Nss (val.map (fun kv => decodeNs kv.2)))) } : Transaction).cache
            = cacheSet t.cache nsListBeg
              (Entry.Nss (val.map (fun kv => decodeNs kv.2))) from rfl]
          rw [cacheGet_set, hv]
        refine ⟨?_, hcache⟩
        simp only [Transaction.all_ns, hcache]
    | some e =>
      cases e
      case Nss v0 =>
        simp only [Transaction.all_ns, hc] at h1
        simp only [Except.ok.injEq, Prod.mk.injEq] at h1
        obtain ⟨hv, ht'⟩ := h1
        subst ht'
        subst hv
        refine ⟨?_, hc⟩
        simp only [Transaction.all_ns, hc]
      all_goals simp only [Transaction.all_ns, hc] at h1
      all_goals cases h1
  have key2 : s'.all_tb ns db = .ok (w, s')
      ∧ cacheGet s'.cache (tbListBeg ns db) = some (Entry.Tbs w) := by
    cases hc : cacheGet s.cache (tbListBeg ns db) with
    | none =>
      simp only [Transaction.all_tb, hc] at h2
      cases hg : s.getr (tbListBeg ns db) (tbListFin ns db) u32Max with
      | error e =>
        simp only [hg] at h2
        cases h2
      | ok val =>
        simp only [hg] at h2
        simp only [Except.ok.injEq, Prod.mk.injEq] at h2
        obtain ⟨hv, hs'⟩ := h2
        rw [← hs']
        have hcache : cacheGet
            ({ s with cache := (cacheSet s.cache (tbListBeg ns db)
              (Entry.Tbs (val.map (fun kv => decodeTb kv.2)))) } : Transaction).cache
            (tbListBeg ns db) = some (Entry.Tbs w) := by
          rw [show ({ s with cache := (cacheSet s.cache (tbListBeg ns db)
              (Entry.Tbs (val.map (fun kv => decodeTb kv.2)))) } : Transaction).cache
            = cacheSet s.cache (tbListBeg ns db)
              (Entry.Tbs (val.map (fun kv => decodeTb kv.2))) from rfl]
          rw [cacheGet_set, hv]
        refine ⟨?_, hcache⟩
        simp only [Transaction.all_tb, hcache]
    | some e =>
      cases e
      case Tbs v0 =>
        simp only [Transaction.all_tb, hc] at h2
        simp only [Except.ok.injEq, Prod.mk.injEq] at h2
        obtain ⟨hv, hs'⟩ := h2
        subst hs'
        subst hv
        refine ⟨?_, hc⟩
        simp only [Transaction.all_tb, hc]
      all_goals simp only [Transaction.all_tb, hc] at h2
      all_goals cases h2
  exact ⟨key1.1, key1.2, key2.1, key2.2⟩

def nsW : String := "testns"

def dbW : String := "testdb"

def txW9 : Transaction := { closed := false, store := [], cache := [] }

def txW9a : Transaction :=
  { closed := false, store := [], cache := [(nsListBeg, Entry.Nss [])] }

def txW9b : Transaction :=
  { closed := false, store := [], cache := [(tbListBeg nsW dbW, Entry.Tbs [])] }

theorem all_accessors_idempotent_witness :
    txW9a.all_ns = .ok ([], txW9a)
    ∧ cacheGet txW9a.cache nsListBeg = some (Entry.Nss [])
    ∧ txW9b.all_tb nsW dbW = .ok ([], txW9b)
    ∧ cacheGet txW9b.cache (tbListBeg nsW dbW) = some (Entry.Tbs []) :=
  all_accessors_idempotent txW9 txW9 nsW dbW [] [] txW9a txW9b (by rfl) (by rfl)

/-! ## Singular accessors and ensure-or-create helpers -/

/-- `Transaction.get_ns` (tx.rs 913-917): point `get`, mapping a missing key to
the kind-specific error. -/
def Transaction.get_ns (t : Transaction) (ns : String) :
    Except Error DefineNamespaceStatement :=
  match t.get (nsKey ns) with
  | .error e => .error e
  | .ok Option.none => .error .NsNotFound
  | .ok (some v) => .ok (decodeNs v)

/-- `Transaction.get_db` (tx.rs 931-935). -/
def Transaction.get_db (t : Transaction) (ns db : String) :
    Except Error DefineDatabaseStatement :=
  match t.get (dbKey ns db) with
  | .error e => .error e
  | .ok Option.none => .error .DbNotFound
  | .ok (some v) => .ok (decodeDb v)

/-- `Transaction.get_tb` (tx.rs 982-991). -/
def Transaction.get_tb (t : Transaction) (ns db tb : String) :
    Except Error DefineTableStatement :=
  match t.get (tbKey ns db tb) with
  | .error e => .error e
  | .ok Option.none => .error .TbNotFound
  | .ok (some v) => .ok (decodeTb v)

/-- The default namespace entity created in dynamic mode: only the name
(tx.rs 1002-1004). -/
def defaultNs (ns : String) : DefineNamespaceStatement := { name := ns }

/-- The default database entity created in dynamic mode: only the name
(tx.rs 1025-1027). -/
def defaultDb (db : String) : DefineDatabaseStatement := { name := db }

/-- The default table entity created in dynamic mode: the name plus
`Permissions::none()`, everything else from `DefineTableStatement::default()`
(tx.rs 1049-1053). -/
def defaultTb (tb : String) : DefineTableStatement :=
  { name := tb, permissions := Permissions.none }

/-- `Transaction.add_ns` (tx.rs 993-1013): read; on the kind-specific NotFound
either surface it (strict) or `put` a default entity and return it; propagate
any other error; return the found entity otherwise. -/
def Transaction.add_ns (t : Transaction) (ns : String) (strict : Bool) :
    Except Error (DefineNamespaceStatement × Transaction) :=
  match t.get_ns ns with
  | .error Error.NsNotFound =>
    match strict with
    | false =>
      match t.put (nsKey ns) (encodeNs (defaultNs ns)) with
      | .error e => .error e
      | .ok t' => .ok (defaultNs ns, t')
    | true => .error .NsNotFound
  | .error e => .error e
  | .ok v => .ok (v, t)

/-- `Transaction.add_db` (tx.rs 1015-1036). -/
def Transaction.add_db (t : Transaction) (ns db : String) (strict : Bool) :
    Except Error (DefineDatabaseStatement × Transaction) :=
  match t.get_db ns db with
  | .error Error.DbNotFound =>
    match strict with
    | false =>
      match t.put (dbKey ns db) (encodeDb (defaultDb db)) with
      | .error e => .error e
      | .ok t' => .ok (defaultDb db, t')
    | true => .error .DbNotFound
  | .error e => .error e
  | .ok v => .ok (v, t)

/-- `Transaction.add_tb` (tx.rs 1038-1062). -/
def Transaction.add_tb (t : Transaction) (ns db tb : String) (strict : Bool) :
    Except Error (DefineTableStatement × Transaction) :=
  match t.get_tb ns db tb with
  | .error Error.TbNotFound =>
    match strict with
    | false =>
      match t.put (tbKey ns db tb) (encodeTb (defaultTb tb)) with
      | .error e => .error e
      | .ok t' => .ok (defaultTb tb, t')
    | true => .error .TbNotFound
  | .error e => .error e
  | .ok v => .ok (v, t)

/-- `Transaction.get_and_cache_ns` (tx.rs 1064-1081): cache first (a wrong
variant is the `unreachable!()` panic); on a miss, point `get`, decode, insert
into the cache and return the shared record. -/
def Transaction.get_and_cache_ns (t : Transaction) (ns : String) :
    Except Error (DefineNamespaceStatement × Transaction) :=
  match cacheGet t.cache (nsKey ns) with
  | some (Entry.Ns v) => .ok (v, t)
  | some _ => .error .Unreachable
  | Option.none =>
    match t.get (nsKey ns) with
    | .error e => .error e
    | .ok Option.none => .error .NsNotFound
    | .ok (some v) =>
      .ok (decodeNs v,
        { t with cache := (cacheSet t.cache (nsKey ns) (Entry.Ns (decodeNs v))) })

/-- `Transaction.get_and_cache_db` (tx.rs 1083-1101). -/
def Transaction.get_and_cache_db (t : Transaction) (ns db : String) :
    Except Error (DefineDatabaseStatement × Transaction) :=
  match cacheGet t.cache (dbKey ns db) with
  | some (Entry.Db v) => .ok (v, t)
  | some _ => .error .Unreachable
  | Option.none =>
    match t.get (dbKey ns db) with
    | .error e => .error e
    | .ok Option.none => .error .DbNotFound
    | .ok (some v) =>
      .ok (decodeDb v,
        { t with cache := (cacheSet t.cache (dbKey ns db) (Entry.Db (decodeDb v))) })

/-- `Transaction.get_and_cache_tb` (tx.rs 1103-1122). -/
def Transaction.get_and_cache_tb (t : Transaction) (ns db tb : String) :
    Except Error (DefineTableStatement × Transaction) :=
  match cacheGet t.cache (tbKey ns db tb) with
  | some (Entry.Tb v) => .ok (v, t)
  | some _ => .error .Unreachable
  | Option.none =>
    match t.get (tbKey ns db tb) with
    | .error e => .error e
    | .ok Option.none => .error .TbNotFound
    | .ok (some v) =>
      .ok (decodeTb v,
        { t with cache := (cacheSet t.cache (tbKey ns db tb) (Entry.Tb (decodeTb v))) })

/-- `Transaction.add_and_cache_ns` (tx.rs 1124-1144): as `add_ns` but reading
through the cached getter; the created default is returned without caching. -/
def Transaction.add_and_cache_ns (t : Transaction) (ns : String) (strict : Bool) :
    Except Error (DefineNamespaceStatement × Transaction) :=
  match t.get_and_cache_ns ns with
  | .error Error.NsNotFound =>
    match strict with
    | false =>
      match t.put (nsKey ns) (encodeNs (defaultNs ns)) with
      | .error e => .error e
      | .ok t' => .ok (defaultNs ns, t')
    | true => .error .NsNotFound
  | .error e => .error e
  | .ok v => .ok v

/-- `Transaction.add_and_cache_db` (tx.rs 1146-1167). -/
def Transaction.add_and_cache_db (t : Transaction) (ns db : String) (strict : Bool) :
    Except Error (DefineDatabaseStatement × Transaction) :=
  match t.get_and_cache_db ns db with
  | .error Error.DbNotFound =>
    match strict with
    | false =>
      match t.put (dbKey ns db) (encodeDb (defaultDb db)) with
      | .error e => .error e
      | .ok t' => .ok (defaultDb db, t')
    | true => .error .DbNotFound
  | .error e => .error e
  | .ok v => .ok v

/-- `Transaction.add_and_cache_tb` (tx.rs 1169-1193). -/
def Transaction.add_and_cache_tb (t : Transaction) (ns db tb : String) (strict : Bool) :
    Except Error (DefineTableStatement × Transaction) :=
  match t.get_and_cache_tb ns db tb with
  | .error Error.TbNotFound =>
    match strict with
    | false =>
      match t.put (tbKey ns db tb) (encodeTb (defaultTb tb)) with
      | .error e => .error e
      | .ok t' => .ok (defaultTb tb, t')
    | true => .error .TbNotFound
  | .error e => .error e
  | .ok v => .ok v

/-- `Transaction.check_ns_db_tb` (tx.rs 1195-1213): short-circuit in dynamic
mode; in strict mode invoke the cached getters for namespace, database and
table in that order. -/
def Transaction.check_ns_db_tb (t : Transaction) (ns db tb : String) (strict : Bool) :
    Except Error Transaction :=
  match strict with
  | false => .ok t
  | true =>
    match t.get_and_cache_ns ns with
    | .error e => .error e
    | .ok (_, t1) =>
      match t1.get_and_cache_db ns db with
      | .error e => .error e
      | .ok (_, t2) =>
        match t2.get_and_cache_tb ns db tb with
        | .error e => .error e
        | .ok (_, t3) => .ok t3

theorem nsKey_ne_dbKey (a b c : String) : nsKey a ≠ dbKey b c := by
  intro h
  simp [nsKey, dbKey, kindKey] at h

theorem nsKey_ne_tbKey (a b c d : String) : nsKey a ≠ tbKey b c d := by
  intro h
  simp [nsKey, tbKey, kindKey] at h

theorem dbKey_ne_tbKey (a b c d e : String) : dbKey a b ≠ tbKey c d e := by
  intro h
  simp [dbKey, tbKey, kindKey] at h

theorem valStr_strVal (s : String) : valStr (strVal s) = s := by
  rw [valStr, strVal, List.map_map]
  have hid : (Char.ofNat ∘ Char.toNat) = id := by
    funext c
    simp [Char.ofNat_toNat]
  rw [hid, List.map_id]

theorem decodeNs_encodeNs (x : DefineNamespaceStatement) : decodeNs (encodeNs x) = x := by
  cases x
  simp [decodeNs, encodeNs, valStr_strVal]

theorem decodeDb_encodeDb (x : DefineDatabaseStatement) : decodeDb (encodeDb x) = x := by
  cases x
  simp [decodeDb, encodeDb, valStr_strVal]

theorem decodeTb_encodeTb (x : DefineTableStatement) : decodeTb (encodeTb x) = x := by
  obtain ⟨name, dr, fu, pe⟩ := x
  cases dr <;> cases fu <;> cases pe <;>
    simp [encodeTb, decodeTb, valStr_strVal, permTag, boolTag]

/-- C8: `check_ns_db_tb(ns, db, tb, strict)` returns `Ok` immediately (the
transaction untouched, with no backend access, even on a closed handle) when
`strict = false`; when `strict = true` it invokes the cached getters in the
order namespace, database, table, so that a missing namespace yields
`NsNotFound`, an existing namespace with a missing database yields
`DbNotFound`, and an existing namespace and database with a missing table
yields `TbNotFound` (missing meaning absent from both the cache and the
store). -/
theorem check_ns_db_tb_spec (t u : Transaction) (ns db tb : String)
    (hopen : t.closed = false) :
    u.check_ns_db_tb ns db tb false = .ok u
    ∧ (cacheGet t.cache (nsKey ns) = Option.none →
        storeGet t.store (nsKey ns) = Option.none →
        t.check_ns_db_tb ns db tb true = .error .NsNotFound)
    ∧ (∀ vns, cacheGet t.cache (nsKey ns) = Option.none →
        storeGet t.store (nsKey ns) = some vns →
        cacheGet t.cache (dbKey ns db) = Option.none →
        storeGet t.store (dbKey ns db) = Option.none →
        t.check_ns_db_tb ns db tb true = .error .DbNotFound)
    ∧ (∀ vns vdb, cacheGet t.cache (nsKey ns) = Option.none →
        storeGet t.store (nsKey ns) = some vns →
        cacheGet t.cache (dbKey ns db) = Option.none →
        storeGet t.store (dbKey ns db) = some vdb →
        cacheGet t.cache (tbKey ns db tb) = Option.none →
        storeGet t.store (tbKey ns db tb) = Option.none →
        t.check_ns_db_tb ns db tb true = .error .TbNotFound) := by
  refine ⟨rfl, ?_, ?_, ?_⟩
  · intro hcn hsn
    simp [Transaction.check_ns_db_tb, Transaction.get_and_cache_ns, hcn,
      Transaction.get, hopen, hsn]
  · intro vns hcn hsn hcd hsd
    have h1 : t.get_and_cache_ns ns = .ok (decodeNs vns,
        { t with cache := (cacheSet t.cache (nsKey ns) (Entry.Ns (decodeNs vns))) }) := by
      simp [Transaction.get_and_cache_ns, hcn, Transaction.get, hopen, hsn]
    have hcd1 : cacheGet (cacheSet t.cache (nsKey ns) (Entry.Ns (decodeNs vns)))
        (dbKey ns db) = Option.none := by
      rw [cacheGet_set_ne t.cache (nsKey_ne_dbKey ns ns db), hcd]
    simp [Transaction.check_ns_db_tb, h1, Transaction.get_and_cache_db, hcd1,
      Transaction.get, hopen, hsd]
  · intro vns vdb hcn hsn hcd hsd hct hst
    have h1 : t.get_and_cache_ns ns = .ok (decodeNs vns,
        { t with cache := (cacheSet t.cache (nsKey ns) (Entry.Ns (decodeNs vns))) }) := by
      simp [Transaction.get_and_cache_ns, hcn, Transaction.get, hopen, hsn]
    have hcd1 : cacheGet (cacheSet t.cache (nsKey ns) (Entry.Ns (decodeNs vns)))
        (dbKey ns db) = Option.none := by
      rw [cacheGet_set_ne t.cache (nsKey_ne_dbKey ns ns db), hcd]
    have h2 : Transaction.get_and_cache_db
        { t with cache := (cacheSet t.cache (nsKey ns) (Entry.Ns (decodeNs vns))) } ns db
        = .ok (decodeDb vdb,
          { t with cache := (cacheSet
              (cacheSet t.cache (nsKey ns) (Entry.Ns (decodeNs vns)))
              (dbKey ns db) (Entry.Db (decodeDb vdb))) }) := by
      simp [Transaction.get_and_cache_db, hcd1, Transaction.get, hopen, hsd]
    have hct1 : cacheGet (cacheSet
        (cacheSet t.cache (nsKey ns) (Entry.Ns (decodeNs vns)))
        (dbKey ns db) (Entry.Db (decodeDb vdb))) (tbKey ns db tb) = Option.none := by
      rw [cacheGet_set_ne _ (dbKey_ne_tbKey ns db ns db tb),
        cacheGet_set_ne t.cache (nsKey_ne_tbKey ns ns db tb), hct]
    simp only [hopen] at h1 h2
    simp [Transaction.check_ns_db_tb, h1, h2, Transaction.get_and_cache_tb, hct1,
      Transaction.get, hopen, hst]

def sA : String := "alpha"

def sB : String := "beta"

def sC : String := "gamma"

def txW8 : Transaction :=
  { closed := false, store := [(nsKey sA, encodeNs (defaultNs sA))], cache := [] }

theorem check_ns_db_tb_spec_witness :
    txW8.check_ns_db_tb sA sB sC false = .ok txW8
    ∧ txW8.check_ns_db_tb sA sB sC true = .error .DbNotFound := by
  have h := check_ns_db_tb_spec txW8 txW8 sA sB sC rfl
  exact ⟨h.1, h.2.2.1 (encodeNs (defaultNs sA)) rfl (by rfl) rfl rfl⟩

/-- C4: ensure-or-create.  For `add_ns`, `add_db`, `add_tb` and their cached
variants: if the entity exists it is returned (decoded) and nothing is written
(the store is unchanged; a cached variant records the hit in the cache); if the
lookup yields the kind-specific NotFound and `strict = true`, that NotFound is
surfaced unchanged; if it yields the kind-specific NotFound and
`strict = false`, the default entity (name only for namespace and database;
name plus `Permissions::none()` and remaining fields at default for table) is
written with `put` and returned; any other error — here `TxFinished` on a
closed handle — propagates unchanged. -/
theorem ensure_or_create_spec (t u : Transaction) (ns db tb : String) (strict : Bool)
    (vns vdb vtb : Val)
    (hopen : t.closed = false) (hu : u.closed = true) :
    (storeGet t.store (nsKey ns) = some vns →
      t.add_ns ns strict = .ok (decodeNs vns, t))
    ∧ (storeGet t.store (nsKey ns) = Option.none →
      t.add_ns ns true = .error .NsNotFound)
    ∧ (storeGet t.store (nsKey ns) = Option.none →
      t.add_ns ns false = .ok (defaultNs ns,
        { t with store := (storeSet t.store (nsKey ns) (encodeNs (defaultNs ns))) }))
    ∧ u.add_ns ns strict = .error .TxFinished
    ∧ (storeGet t.store (dbKey ns db) = some vdb →
      t.add_db ns db strict = .ok (decodeDb vdb, t))
    ∧ (storeGet t.store (dbKey ns db) = Option.none →
      t.add_db ns db true = .error .DbNotFound)
    ∧ (storeGet t.store (dbKey ns db) = Option.none →
      t.add_db ns db false = .ok (defaultDb db,
        { t with store := (storeSet t.store (dbKey ns db) (encodeDb (defaultDb db))) }))
    ∧ u.add_db ns db strict = .error .TxFinished
    ∧ (storeGet t.store (tbKey ns db tb) = some vtb →
      t.add_tb ns db tb strict = .ok (decodeTb vtb, t))
    ∧ (storeGet t.store (tbKey ns db tb) = Option.none →
      t.add_tb ns db tb true = .error .TbNotFound)
    ∧ (storeGet t.store (tbKey ns db tb) = Option.none →
      t.add_tb ns db tb false = .ok (defaultTb tb,
        { t with store := (storeSet t.store (tbKey ns db tb) (encodeTb (defaultTb tb))) }))
    ∧ u.add_tb ns db tb strict = .error .TxFinished
    ∧ (cacheGet t.cache (nsKey ns) = Option.none →
      storeGet t.store (nsKey ns) = some vns →
      t.add_and_cache_ns ns strict = .ok (decodeNs vns,
        { t with cache := (cacheSet t.cache (nsKey ns) (Entry.Ns (decodeNs vns))) }))
    ∧ (cacheGet t.cache (nsKey ns) = Option.none →
      storeGet t.store (nsKey ns) = Option.none →
      t.add_and_cache_ns ns true = .error .NsNotFound)
    ∧ (cacheGet t.cache (nsKey ns) = Option.none →
      storeGet t.store (nsKey ns) = Option.none →
      t.add_and_cache_ns ns false = .ok (defaultNs ns,
        { t with store := (storeSet t.store (nsKey ns) (encodeNs (defaultNs ns))) }))
    ∧ (cacheGet u.cache (nsKey ns) = Option.none →
      u.add_and_cache_ns ns strict = .error .TxFinished)
    ∧ (cacheGet t.cache (dbKey ns db) = Option.none →
      storeGet t.store (dbKey ns db) = some vdb →
      t.add_and_cache_db ns db strict = .ok (decodeDb vdb,
        { t with cache := (cacheSet t.cache (dbKey ns db) (Entry.Db (decodeDb vdb))) }))
    ∧ (cacheGet t.cache (dbKey ns db) = Option.none →
      storeGet t.store (dbKey ns db) = Option.none →
      t.add_and_cache_db ns db true = .error .DbNotFound)
    ∧ (cacheGet t.cache (dbKey ns db) = Option.none →
      storeGet t.store (dbKey ns db) = Option.none →
      t.add_and_cache_db ns db false = .ok (defaultDb db,
        { t with store := (storeSet t.store (dbKey ns db) (encodeDb (defaultDb db))) }))
    ∧ (cacheGet u.cache (dbKey ns db) = Option.none →
      u.add_and_cache_db ns db strict = .error .TxFinished)
    ∧ (cacheGet t.cache (tbKey ns db tb) = Option.none →
      storeGet t.store (tbKey ns db tb) = some vtb →
      t.add_and_cache_tb ns db tb strict = .ok (decodeTb vtb,
        { t with cache := (cacheSet t.cache (tbKey ns db tb) (Entry.Tb (decodeTb vtb))) }))
    ∧ (cacheGet t.cache (tbKey ns db tb) = Option.none →
      storeGet t.store (tbKey ns db tb) = Option.none →
      t.add_and_cache_tb ns db tb true = .error .TbNotFound)
    ∧ (cacheGet t.cache (tbKey ns db tb) = Option.none →
      storeGet t.store (tbKey ns db tb) = Option.none →
      t.add_and_cache_tb ns db tb false = .ok (defaultTb tb,
        { t with store := (storeSet t.store (tbKey ns db tb) (encodeTb (defaultTb tb))) }))
    ∧ (cacheGet u.cache (tbKey ns db tb) = Option.none →
      u.add_and_cache_tb ns db tb strict = .error .TxFinished) := by
  refine ⟨?_, ?_, ?_, ?_, ?_, ?_, ?_, ?_, ?_, ?_, ?_, ?_, ?_, ?_, ?_, ?_, ?_, ?_, ?_,
    ?_, ?_, ?_, ?_, ?_⟩
  · intro h
    cases strict <;>
      simp [Transaction.add_ns, Transaction.get_ns, Transaction.get, hopen, h]
  · intro h
    simp [Transaction.add_ns, Transaction.get_ns, Transaction.get, hopen, h]
  · intro h
    simp [Transaction.add_ns, Transaction.get_ns, Transaction.get, Transaction.put,
      hopen, h]
  · cases strict <;>
      simp [Transaction.add_ns, Transaction.get_ns, Transaction.get, hu]
  · intro h
    cases strict <;>
      simp [Transaction.add_db, Transaction.get_db, Transaction.get, hopen, h]
  · intro h
    simp [Transaction.add_db, Transaction.get_db, Transaction.get, hopen, h]
  · intro h
    simp [Transaction.add_db, Transaction.get_db, Transaction.get, Transaction.put,
      hopen, h]
  · cases strict <;>
      simp [Transaction.add_db, Transaction.get_db, Transaction.get, hu]
  · intro h
    cases strict <;>
      simp [Transaction.add_tb, Transaction.get_tb, Transaction.get, hopen, h]
  · intro h
    simp [Transaction.add_tb, Transaction.get_tb, Transaction.get, hopen, h]
  · intro h
    simp [Transaction.add_tb, Transaction.get_tb, Transaction.get, Transaction.put,
      hopen, h]
  · cases strict <;>
      simp [Transaction.add_tb, Transaction.get_tb, Transaction.get, hu]
  · intro hc h
    cases strict <;>
      simp [Transaction.add_and_cache_ns, Transaction.get_and_cache_ns, Transaction.get,
        hopen, hc, h]
  · intro hc h
    simp [Transaction.add_and_cache_ns, Transaction.get_and_cache_ns, Transaction.get,
      hopen, hc, h]
  · intro hc h
    simp [Transaction.add_and_cache_ns, Transaction.get_and_cache_ns, Transaction.get,
      Transaction.put, hopen, hc, h]
  · intro hc
    cases strict <;>
      simp [Transaction.add_and_cache_ns, Transaction.get_and_cache_ns, Transaction.get,
        hu, hc]
  · intro hc h
    cases strict <;>
      simp [Transaction.add_and_cache_db, Transaction.get_and_cache_db, Transaction.get,
        hopen, hc, h]
  · intro hc h
    simp [Transaction.add_and_cache_db, Transaction.get_and_cache_db, Transaction.get,
      hopen, hc, h]
  · intro hc h
    simp [Transaction.add_and_cache_db, Transaction.get_and_cache_db, Transaction.get,
      Transaction.put, hopen, hc, h]
  · intro hc
    cases strict <;>
      simp [Transaction.add_and_cache_db, Transaction.get_and_cache_db, Transaction.get,
        hu, hc]
  · intro hc h
    cases strict <;>
      simp [Transaction.add_and_cache_tb, Transaction.get_and_cache_tb, Transaction.get,
        hopen, hc, h]
  · intro hc h
    simp [Transaction.add_and_cache_tb, Transaction.get_and_cache_tb, Transaction.get,
      hopen, hc, h]
  · intro hc h
    simp [Transaction.add_and_cache_tb, Transaction.get_and_cache_tb, Transaction.get,
      Transaction.put, hopen, hc, h]
  · intro hc
    cases strict <;>
      simp [Transaction.add_and_cache_tb, Transaction.get_and_cache_tb, Transaction.get,
        hu, hc]

def txW4 : Transaction :=
  { closed := false, store := [(nsKey sA, encodeNs (defaultNs sA))], cache := [] }

def txW4c : Transaction := { closed := true, store := [], cache := [] }

theorem ensure_or_create_spec_witness :
    txW4.add_ns sA false = .ok (defaultNs sA, txW4)
    ∧ txW4.add_db sA sB true = .error .DbNotFound
    ∧ txW4c.add_tb sA sB sC false = .error .TxFinished := by
  obtain ⟨p1, p2, p3, p4, p5, p6, p7, p8, p9, p10, p11, p12, prest⟩ :=
    ensure_or_create_spec txW4 txW4c sA sB sC false (encodeNs (defaultNs sA)) [] []
      rfl rfl
  refine ⟨?_, p6 (by rfl), p12⟩
  rw [p1 (by rfl), decodeNs_encodeNs]

/-! ## The exporter -/

/-- Modelled from the spec: canonical SQL text renderings of the catalog
records (section 6); the exporter only relies on their existence. -/
def renderDl (x : DefineLoginStatement) : String := "DEFINE LOGIN " ++ x.name

def renderDt (x : DefineTokenStatement) : String := "DEFINE TOKEN " ++ x.name

def renderSc (x : DefineScopeStatement) : String := "DEFINE SCOPE " ++ x.name

def renderTb (x : DefineTableStatement) : String := "DEFINE TABLE " ++ x.name

def renderFd (x : DefineFieldStatement) : String := "DEFINE FIELD " ++ x.name

def renderIx (x : DefineIndexStatement) : String := "DEFINE INDEX " ++ x.name

def renderEv (x : DefineEventStatement) : String := "DEFINE EVENT " ++ x.name

/-- The comment ruler sent around every banner. -/
def dash : String := "-- ------------------------------"

/-- A banner: ruler, title line, ruler, blank (tx.rs sends these as four
separate lines). -/
def bannerLines (title : String) : List String := [dash, title, dash, ""]

/-- Statements followed by a blank line, but nothing when the list is empty
(the `if !xs.is_empty()` guards inside the table block). -/
def stmtsBlock (xs : List String) : List String := if xs.isEmpty then [] else xs ++ [""]

/-- A banner-led section, emitted only when it has content (tx.rs 1227-1237
and the analogous TOKENS and SCOPES blocks). -/
def sectionBlock (title : String) (xs : List String) : List String :=
  if xs.isEmpty then [] else bannerLines title ++ xs ++ [""]

/-- The OPTION block, always emitted first (tx.rs 1216-1224). -/
def optionBlock : List String := bannerLines ("-- OPTION") ++ ["OPTION IMPORT;", ""]

/-- The TRANSACTION banner followed by one statement and a blank
(tx.rs 1306-1312 and 1364-1370). -/
def txBlock (stmt : String) : List String := bannerLines ("-- TRANSACTION") ++ [stmt, ""]

/-- The schema block of one table: banner, `DEFINE TABLE`, then fields,
indexes and events (tx.rs 1271-1304). -/
def tableDefBlock (tb : DefineTableStatement) (fds : List DefineFieldStatement)
    (ixs : List DefineIndexStatement) (evs : List DefineEventStatement) : List String :=
  bannerLines ("-- TABLE: " ++ tb.name) ++ [renderTb tb ++ ";", ""]
    ++ stmtsBlock (fds.map (fun x => renderFd x ++ ";"))
    ++ stmtsBlock (ixs.map (fun x => renderIx x ++ ";"))
    ++ stmtsBlock (evs.map (fun x => renderEv x ++ ";"))

/-- One exported row: `UPDATE <thing> CONTENT <value>;` (tx.rs 1352-1356; the
thing and value decoding and rendering are modelled from spec section 6). -/
def rowLine (k : Key) (v : Val) : String :=
  "UPDATE " ++ valStr k ++ " CONTENT " ++ valStr v ++ ";"

/-- Row paging loop of the exporter (tx.rs 1323-1361): fixed window 1000, no
user limit, cursor advanced by appending 0x00 to the last key; paging stops at
the first empty batch.  `fuel` only bounds the recursion: every call keeps the
number of remaining in-range entries below `fuel`, and every non-empty batch
strictly shrinks it, so the fuel-exhausted branch is never taken from the
initial call. -/
def exportRows (t : Transaction) (beg fin : Key) :
    Nat → Option Key → Except Error (List String)
  | 0, _ => .ok []
  | fuel + 1, nxt =>
    match t.scan (cursorKey beg nxt) fin 1000 with
    | .error e => .error e
    | .ok res =>
      match res.getLast? with
      | Option.none => .ok []
      | some last =>
        match exportRows t beg fin fuel (some last.1) with
        | .error e => .error e
        | .ok lines => .ok (res.map (fun kv => rowLine kv.1 kv.2) ++ lines)

/-- The table-data half of the exporter's TABLES section (tx.rs 1313-1363):
per table a banner, the paged rows, and a blank line.  Only reads, so the
transaction is not threaded. -/
def exportData (ns db : String) (t : Transaction) :
    List DefineTableStatement → Except Error (List String)
  | [] => .ok []
  | tb :: rest =>
    match exportRows t (thingBeg ns db tb.name) (thingFin ns db tb.name)
        (t.store.length + 1) Option.none with
    | .error e => .error e
    | .ok rows =>
      match exportData ns db t rest with
      | .error e => .error e
      | .ok lines =>
        .ok (bannerLines ("-- TABLE DATA: " ++ tb.name) ++ rows ++ [""] ++ lines)

/-- The schema half of the exporter's TABLES section (tx.rs 1271-1305): per
table the `DEFINE TABLE` block with its fields, indexes and events, fetched
through the cached list accessors, threading the transaction. -/
def exportDefs (ns db : String) :
    Transaction → List DefineTableStatement → Except Error (List String × Transaction)
  | t, [] => .ok ([], t)
  | t, tb :: rest =>
    match t.all_fd ns db tb.name with
    | .error e => .error e
    | .ok (fds, t1) =>
      match t1.all_ix ns db tb.name with
      | .error e => .error e
      | .ok (ixs, t2) =>
        match t2.all_ev ns db tb.name with
        | .error e => .error e
        | .ok (evs, t3) =>
          match exportDefs ns db t3 rest with
          | .error e => .error e
          | .ok (lines, t4) => .ok (tableDefBlock tb fds ixs evs ++ lines, t4)

/-- `Transaction.export` (tx.rs 1215-1375): stream the OPTION block, then the
LOGINS, TOKENS and SCOPES sections (each only when non-empty), then — only if
at least one table exists — the per-table schema blocks, `BEGIN TRANSACTION;`,
the per-table row data, and `COMMIT TRANSACTION;`.  The channel is modelled by
the ordered list of sent lines. -/
def Transaction.export (t : Transaction) (ns db : String) :
    Except Error (List String × Transaction) :=
  match t.all_dl ns db with
  | .error e => .error e
  | .ok (dls, t1) =>
    match t1.all_dt ns db with
    | .error e => .error e
    | .ok (dts, t2) =>
      match t2.all_sc ns db with
      | .error e => .error e
      | .ok (scs, t3) =>
        match t3.all_tb ns db with
        | .error e => .error e
        | .ok (tbs, t4) =>
          if tbs.isEmpty then
            .ok (optionBlock
              ++ sectionBlock ("-- LOGINS") (dls.map (fun x => renderDl x ++ ";"))
              ++ sectionBlock ("-- TOKENS") (dts.map (fun x => renderDt x ++ ";"))
              ++ sectionBlock ("-- SCOPES") (scs.map (fun x => renderSc x ++ ";")), t4)
          else
            match exportDefs ns db t4 tbs with
            | .error e => .error e
            | .ok (defsL, t5) =>
              match exportData ns db t5 tbs with
              | .error e => .error e
              | .ok dataL =>
                .ok (optionBlock
                  ++ sectionBlock ("-- LOGINS") (dls.map (fun x => renderDl x ++ ";"))
                  ++ sectionBlock ("-- TOKENS") (dts.map (fun x => renderDt x ++ ";"))
                  ++ sectionBlock ("-- SCOPES") (scs.map (fun x => renderSc x ++ ";"))
                  ++ defsL
                  ++ txBlock ("BEGIN TRANSACTION;")
                  ++ dataL
                  ++ txBlock ("COMMIT TRANSACTION;"), t5)


/-! ## Structural lemmas about the accessors, for the exporter -/

theorem all_dl_delta {t t' : Transaction} {ns db : String} {v : List DefineLoginStatement}
    (h : t.all_dl ns db = .ok (v, t')) :
    t'.closed = t.closed ∧ t'.store = t.store
    ∧ (t'.cache = t.cache ∨ t'.cache = cacheSet t.cache (dlListBeg ns db) (Entry.Dls v)) := by
  cases hc : cacheGet t.cache (dlListBeg ns db) with
  | none =>
    simp only [Transaction.all_dl, hc] at h
    cases hg : t.getr (dlListBeg ns db) (dlListFin ns db) u32Max with
    | error e =>
      simp only [hg] at h
      cases h
    | ok val =>
      simp only [hg] at h
      simp only [Except.ok.injEq, Prod.mk.injEq] at h
      obtain ⟨hv, ht'⟩ := h
      rw [← ht']
      refine ⟨rfl, rfl, Or.inr ?_⟩
      rw [hv]
  | some e =>
    cases e
    case Dls v0 =>
      simp only [Transaction.all_dl, hc] at h
      simp only [Except.ok.injEq, Prod.mk.injEq] at h
      obtain ⟨hv, ht'⟩ := h
      rw [← ht']
      exact ⟨rfl, rfl, Or.inl rfl⟩
    all_goals simp only [Transaction.all_dl, hc] at h
    all_goals cases h

theorem all_dt_delta {t t' : Transaction} {ns db : String} {v : List DefineTokenStatement}
    (h : t.all_dt ns db = .ok (v, t')) :
    t'.closed = t.closed ∧ t'.store = t.store
    ∧ (t'.cache = t.cache ∨ t'.cache = cacheSet t.cache (dtListBeg ns db) (Entry.Dts v)) := by
  cases hc : cacheGet t.cache (dtListBeg ns db) with
  | none =>
    simp only [Transaction.all_dt, hc] at h
    cases hg : t.getr (dtListBeg ns db) (dtListFin ns db) u32Max with
    | error e =>
      simp only [hg] at h
      cases h
    | ok val =>
      simp only [hg] at h
      simp only [Except.ok.injEq, Prod.mk.injEq] at h
      obtain ⟨hv, ht'⟩ := h
      rw [← ht']
      refine ⟨rfl, rfl, Or.inr ?_⟩
      rw [hv]
  | some e =>
    cases e
    case Dts v0 =>
      simp only [Transaction.all_dt, hc] at h
      simp only [Except.ok.injEq, Prod.mk.injEq] at h
      obtain ⟨hv, ht'⟩ := h
      rw [← ht']
      exact ⟨rfl, rfl, Or.inl rfl⟩
    all_goals simp only [Transaction.all_dt, hc] at h
    all_goals cases h

theorem all_sc_delta {t t' : Transaction} {ns db : String} {v : List DefineScopeStatement}
    (h : t.all_sc ns db = .ok (v, t')) :
    t'.closed = t.closed ∧ t'.store = t.store
    ∧ (t'.cache = t.cache ∨ t'.cache = cacheSet t.cache (scListBeg ns db) (Entry.Scs v)) := by
  cases hc : cacheGet t.cache (scListBeg ns db) with
  | none =>
    simp only [Transaction.all_sc, hc] at h
    cases hg : t.getr (scListBeg ns db) (scListFin ns db) u32Max with
    | error e =>
      simp only [hg] at h
      cases h
    | ok val =>
      simp only [hg] at h
      simp only [Except.ok.injEq, Prod.mk.injEq] at h
      obtain ⟨hv, ht'⟩ := h
      rw [← ht']
      refine ⟨rfl, rfl, Or.inr ?_⟩
      rw [hv]
  | some e =>
    cases e
    case Scs v0 =>
      simp only [Transaction.all_sc, hc] at h
      simp only [Except.ok.injEq, Prod.mk.injEq] at h
      obtain ⟨hv, ht'⟩ := h
      rw [← ht']
      exact ⟨rfl, rfl, Or.inl rfl⟩
    all_goals simp only [Transaction.all_sc, hc] at h
    all_goals cases h

theorem all_tb_delta {t t' : Transaction} {ns db : String} {v : List DefineTableStatement}
    (h : t.all_tb ns db = .ok (v, t')) :
    t'.closed = t.closed ∧ t'.store = t.store
    ∧ (t'.cache = t.cache ∨ t'.cache = cacheSet t.cache (tbListBeg ns db) (Entry.Tbs v)) := by
  cases hc : cacheGet t.cache (tbListBeg ns db) with
  | none =>
    simp only [Transaction.all_tb, hc] at h
    cases hg : t.getr (tbListBeg ns db) (tbListFin ns db) u32Max with
    | error e =>
      simp only [hg] at h
      cases h
    | ok val =>
      simp only [hg] at h
      simp only [Except.ok.injEq, Prod.mk.injEq] at h
      obtain ⟨hv, ht'⟩ := h
      rw [← ht']
      refine ⟨rfl, rfl, Or.inr ?_⟩
      rw [hv]
  | some e =>
    cases e
    case Tbs v0 =>
      simp only [Transaction.all_tb, hc] at h
      simp only [Except.ok.injEq, Prod.mk.injEq] at h
      obtain ⟨hv, ht'⟩ := h
      rw [← ht']
      exact ⟨rfl, rfl, Or.inl rfl⟩
    all_goals simp only [Transaction.all_tb, hc] at h
    all_goals cases h

theorem all_fd_delta {t t' : Transaction} {ns db tb : String} {v : List DefineFieldStatement}
    (h : t.all_fd ns db tb = .ok (v, t')) :
    t'.closed = t.closed ∧ t'.store = t.store
    ∧ (t'.cache = t.cache ∨ t'.cache = cacheSet t.cache (fdListBeg ns db tb) (Entry.Fds v)) := by
  cases hc : cacheGet t.cache (fdListBeg ns db tb) with
  | none =>
    simp only [Transaction.all_fd, hc] at h
    cases hg : t.getr (fdListBeg ns db tb) (fdListFin ns db tb) u32Max with
    | error e =>
      simp only [hg] at h
      cases h
    | ok val =>
      simp only [hg] at h
      simp only [Except.ok.injEq, Prod.mk.injEq] at h
      obtain ⟨hv, ht'⟩ := h
      rw [← ht']
      refine ⟨rfl, rfl, Or.inr ?_⟩
      rw [hv]
  | some e =>
    cases e
    case Fds v0 =>
      simp only [Transaction.all_fd, hc] at h
      simp only [Except.ok.injEq, Prod.mk.injEq] at h
      obtain ⟨hv, ht'⟩ := h
      rw [← ht']
      exact ⟨rfl, rfl, Or.inl rfl⟩
    all_goals simp only [Transaction.all_fd, hc] at h
    all_goals cases h

theorem all_ix_delta {t t' : Transaction} {ns db tb : String} {v : List DefineIndexStatement}
    (h : t.all_ix ns db tb = .ok (v, t')) :
    t'.closed = t.closed ∧ t'.store = t.store
    ∧ (t'.cache = t.cache ∨ t'.cache = cacheSet t.cache (ixListBeg ns db tb) (Entry.Ixs v)) := by
  cases hc : cacheGet t.cache (ixListBeg ns db tb) with
  | none =>
    simp only [Transaction.all_ix, hc] at h
    cases hg : t.getr (ixListBeg ns db tb) (ixListFin ns db tb) u32Max with
    | error e =>
      simp only [hg] at h
      cases h
    | ok val =>
      simp only [hg] at h
      simp only [Except.ok.injEq, Prod.mk.injEq] at h
      obtain ⟨hv, ht'⟩ := h
      rw [← ht']
      refine ⟨rfl, rfl, Or.inr ?_⟩
      rw [hv]
  | some e =>
    cases e
    case Ixs v0 =>
      simp only [Transaction.all_ix, hc] at h
      simp only [Except.ok.injEq, Prod.mk.injEq] at h
      obtain ⟨hv, ht'⟩ := h
      rw [← ht']
      exact ⟨rfl, rfl, Or.inl rfl⟩
    all_goals simp only [Transaction.all_ix, hc] at h
    all_goals cases h

theorem all_ev_delta {t t' : Transaction} {ns db tb : String} {v : List DefineEventStatement}
    (h : t.all_ev ns db tb = .ok (v, t')) :
    t'.closed = t.closed ∧ t'.store = t.store
    ∧ (t'.cache = t.cache ∨ t'.cache = cacheSet t.cache (evListBeg ns db tb) (Entry.Evs v)) := by
  cases hc : cacheGet t.cache (evListBeg ns db tb) with
  | none =>
    simp only [Transaction.all_ev, hc] at h
    cases hg : t.getr (evListBeg ns db tb) (evListFin ns db tb) u32Max with
    | error e =>
      simp only [hg] at h
      cases h
    | ok val =>
      simp only [hg] at h
      simp only [Except.ok.injEq, Prod.mk.injEq] at h
      obtain ⟨hv, ht'⟩ := h
      rw [← ht']
      refine ⟨rfl, rfl, Or.inr ?_⟩
      rw [hv]
  | some e =>
    cases e
    case Evs v0 =>
      simp only [Transaction.all_ev, hc] at h
      simp only [Except.ok.injEq, Prod.mk.injEq] at h
      obtain ⟨hv, ht'⟩ := h
      rw [← ht']
      exact ⟨rfl, rfl, Or.inl rfl⟩
    all_goals simp only [Transaction.all_ev, hc] at h
    all_goals cases h

theorem all_fd_progress (t : Transaction) (ns db tb : String)
    (hopen : t.closed = false)
    (hc : ∀ e, cacheGet t.cache (fdListBeg ns db tb) = some e → ∃ v, e = Entry.Fds v) :
    ∃ out t', t.all_fd ns db tb = .ok (out, t') := by
  cases hcc : cacheGet t.cache (fdListBeg ns db tb) with
  | none =>
    obtain ⟨o, c, hg, -⟩ := getrGo_scans t (fdListBeg ns db tb) (fdListFin ns db tb)
      hopen u32Max Option.none u32Max [] 0 (le_refl u32Max)
    have hgr : t.getr (fdListBeg ns db tb) (fdListFin ns db tb) u32Max = .ok o := by
      rw [Transaction.getr, hg]
      rfl
    refine ⟨o.map (fun kv => decodeFd kv.2),
      { t with cache := (cacheSet t.cache (fdListBeg ns db tb)
        (Entry.Fds (o.map (fun kv => decodeFd kv.2)))) }, ?_⟩
    simp only [Transaction.all_fd, hcc, hgr]
  | some e =>
    obtain ⟨v, hv⟩ := hc e hcc
    subst hv
    exact ⟨v, t, by simp only [Transaction.all_fd, hcc]⟩

theorem all_ix_progress (t : Transaction) (ns db tb : String)
    (hopen : t.closed = false)
    (hc : ∀ e, cacheGet t.cache (ixListBeg ns db tb) = some e → ∃ v, e = Entry.Ixs v) :
    ∃ out t', t.all_ix ns db tb = .ok (out, t') := by
  cases hcc : cacheGet t.cache (ixListBeg ns db tb) with
  | none =>
    obtain ⟨o, c, hg, -⟩ := getrGo_scans t (ixListBeg ns db tb) (ixListFin ns db tb)
      hopen u32Max Option.none u32Max [] 0 (le_refl u32Max)
    have hgr : t.getr (ixListBeg ns db tb) (ixListFin ns db tb) u32Max = .ok o := by
      rw [Transaction.getr, hg]
      rfl
    refine ⟨o.map (fun kv => decodeIx kv.2),
      { t with cache := (cacheSet t.cache (ixListBeg ns db tb)
        (Entry.Ixs (o.map (fun kv => decodeIx kv.2)))) }, ?_⟩
    simp only [Transaction.all_ix, hcc, hgr]
  | some e =>
    obtain ⟨v, hv⟩ := hc e hcc
    subst hv
    exact ⟨v, t, by simp only [Transaction.all_ix, hcc]⟩

theorem all_ev_progress (t : Transaction) (ns db tb : String)
    (hopen : t.closed = false)
    (hc : ∀ e, cacheGet t.cache (evListBeg ns db tb) = some e → ∃ v, e = Entry.Evs v) :
    ∃ out t', t.all_ev ns db tb = .ok (out, t') := by
  cases hcc : cacheGet t.cache (evListBeg ns db tb) with
  | none =>
    obtain ⟨o, c, hg, -⟩ := getrGo_scans t (evListBeg ns db tb) (evListFin ns db tb)
      hopen u32Max Option.none u32Max [] 0 (le_refl u32Max)
    have hgr : t.getr (evListBeg ns db tb) (evListFin ns db tb) u32Max = .ok o := by
      rw [Transaction.getr, hg]
      rfl
    refine ⟨o.map (fun kv => decodeEv kv.2),
      { t with cache := (cacheSet t.cache (evListBeg ns db tb)
        (Entry.Evs (o.map (fun kv => decodeEv kv.2)))) }, ?_⟩
    simp only [Transaction.all_ev, hcc, hgr]
  | some e =>
    obtain ⟨v, hv⟩ := hc e hcc
    subst hv
    exact ⟨v, t, by simp only [Transaction.all_ev, hcc]⟩

theorem listBegOf_ne_tag {a b c d : Nat} (h : ¬ (a = c ∧ b = d)) (p q : List String) :
    listBegOf [a, b] p ≠ listBegOf [c, d] q := by
  intro heq
  simp only [listBegOf, kindKey, List.cons_append, List.nil_append] at heq
  injection heq with h1 h2
  injection h2 with h3 h4
  exact h ⟨h1, h3⟩

/-- The internal invariant the exporter maintains: every cache entry sitting at
a field, index or event list key has the matching variant (spec section 4.3:
a mismatch is a programmer error). -/
def TblCacheOk (c : Cache) (ns db : String) : Prop :=
  (∀ x e, cacheGet c (fdListBeg ns db x) = some e → ∃ v, e = Entry.Fds v)
  ∧ (∀ x e, cacheGet c (ixListBeg ns db x) = some e → ∃ v, e = Entry.Ixs v)
  ∧ (∀ x e, cacheGet c (evListBeg ns db x) = some e → ∃ v, e = Entry.Evs v)

theorem tblCacheOk_nil (ns db : String) : TblCacheOk [] ns db := by
  refine ⟨?_, ?_, ?_⟩ <;> intro x e hx <;> simp [cacheGet] at hx

theorem tblCacheOk_set (c : Cache) (ns db : String) (hc : TblCacheOk c ns db)
    (k : Key) (e : Entry)
    (hk1 : ∀ x, k = fdListBeg ns db x → ∃ v, e = Entry.Fds v)
    (hk2 : ∀ x, k = ixListBeg ns db x → ∃ v, e = Entry.Ixs v)
    (hk3 : ∀ x, k = evListBeg ns db x → ∃ v, e = Entry.Evs v) :
    TblCacheOk (cacheSet c k e) ns db := by
  refine ⟨?_, ?_, ?_⟩ <;> intro x e' hx
  · by_cases hkx : k = fdListBeg ns db x
    · rw [hkx, cacheGet_set] at hx
      obtain ⟨v, hv⟩ := hk1 x hkx
      exact ⟨v, by rw [← Option.some.inj hx, hv]⟩
    · rw [cacheGet_set_ne c hkx] at hx
      exact hc.1 x e' hx
  · by_cases hkx : k = ixListBeg ns db x
    · rw [hkx, cacheGet_set] at hx
      obtain ⟨v, hv⟩ := hk2 x hkx
      exact ⟨v, by rw [← Option.some.inj hx, hv]⟩
    · rw [cacheGet_set_ne c hkx] at hx
      exact hc.2.1 x e' hx
  · by_cases hkx : k = evListBeg ns db x
    · rw [hkx, cacheGet_set] at hx
      obtain ⟨v, hv⟩ := hk3 x hkx
      exact ⟨v, by rw [← Option.some.inj hx, hv]⟩
    · rw [cacheGet_set_ne c hkx] at hx
      exact hc.2.2 x e' hx


/-- The per-table schema half of the exporter succeeds on an open transaction
with a well-variant cache, produces one `tableDefBlock` per table in order,
and preserves the store, the closed flag and the cache invariant. -/
theorem exportDefs_shape (ns db : String) :
    ∀ (tbs : List DefineTableStatement) (t : Transaction), t.closed = false →
      TblCacheOk t.cache ns db →
      ∃ (blocks : List (List String)) (t' : Transaction),
        exportDefs ns db t tbs = .ok (blocks.flatten, t')
        ∧ t'.closed = false ∧ t'.store = t.store ∧ TblCacheOk t'.cache ns db
        ∧ blocks.length = tbs.length
        ∧ ∀ i (hb : i < blocks.length) (hi : i < tbs.length), ∃ fds ixs evs,
            blocks.get ⟨i, hb⟩ = tableDefBlock (tbs.get ⟨i, hi⟩) fds ixs evs := by
  intro tbs
  induction tbs with
  | nil =>
    intro t ht hcok
    refine ⟨[], t, rfl, ht, rfl, hcok, rfl, ?_⟩
    intro i hb
    simp at hb
  | cons tb rest ih =>
    intro t ht hcok
    obtain ⟨fds, ta, hfd⟩ := all_fd_progress t ns db tb.name ht (hcok.1 tb.name)
    obtain ⟨hca, hsa, hda⟩ := all_fd_delta hfd
    have hta : ta.closed = false := by rw [hca, ht]
    have hwa : TblCacheOk ta.cache ns db := by
      rcases hda with h | h
      · rw [h]; exact hcok
      · rw [h]
        exact tblCacheOk_set t.cache ns db hcok _ _
          (fun x _ => ⟨fds, rfl⟩)
          (fun x hx => absurd hx (listBegOf_ne_tag (by decide) _ _))
          (fun x hx => absurd hx (listBegOf_ne_tag (by decide) _ _))
    obtain ⟨ixs, tb2, hix⟩ := all_ix_progress ta ns db tb.name hta (hwa.2.1 tb.name)
    obtain ⟨hcb, hsb, hdb⟩ := all_ix_delta hix
    have htb2 : tb2.closed = false := by rw [hcb, hta]
    have hwb : TblCacheOk tb2.cache ns db := by
      rcases hdb with h | h
      · rw [h]; exact hwa
      · rw [h]
        exact tblCacheOk_set ta.cache ns db hwa _ _
          (fun x hx => absurd hx (listBegOf_ne_tag (by decide) _ _))
          (fun x _ => ⟨ixs, rfl⟩)
          (fun x hx => absurd hx (listBegOf_ne_tag (by decide) _ _))
    obtain ⟨evs, tc, hev⟩ := all_ev_progress tb2 ns db tb.name htb2 (hwb.2.2 tb.name)
    obtain ⟨hcc, hsc', hdc⟩ := all_ev_delta hev
    have htc : tc.closed = false := by rw [hcc, htb2]
    have hwc : TblCacheOk tc.cache ns db := by
      rcases hdc with h | h
      · rw [h]; exact hwb
      · rw [h]
        exact tblCacheOk_set tb2.cache ns db hwb _ _
          (fun x hx => absurd hx (listBegOf_ne_tag (by decide) _ _))
          (fun x hx => absurd hx (listBegOf_ne_tag (by decide) _ _))
          (fun x _ => ⟨evs, rfl⟩)
    obtain ⟨blocks, t', hrec, hcl', hst', hw', hlen', hidx'⟩ := ih tc htc hwc
    refine ⟨tableDefBlock tb fds ixs evs :: blocks, t', ?_, hcl', ?_, hw', ?_, ?_⟩
    · simp only [exportDefs, hfd, hix, hev, hrec, List.flatten_cons]
    · rw [hst', hsc', hsb, hsa]
    · simp [hlen']
    · intro i hb hi
      cases i with
      | zero => exact ⟨fds, ixs, evs, rfl⟩
      | succ j => exact hidx' j (by simpa using hb) (by simpa using hi)

/-- The row paging loop of the exporter succeeds on an open transaction when
the fuel exceeds the number of remaining in-range entries, and every emitted
line is an `UPDATE ... CONTENT ...;` row. -/
theorem exportRows_shape (t : Transaction) (beg fin : Key) (hopen : t.closed = false) :
    ∀ fuel nxt, (rangeOf t.store (cursorKey beg nxt) fin).length < fuel →
      ∃ rows, exportRows t beg fin fuel nxt = .ok rows
        ∧ ∀ l ∈ rows, ∃ k v, l = rowLine k v := by
  intro fuel
  induction fuel with
  | zero =>
    intro nxt h
    exact absurd h (by omega)
  | succ f ih =>
    intro nxt hlen
    have hscan : t.scan (cursorKey beg nxt) fin 1000
        = .ok ((rangeOf t.store (cursorKey beg nxt) fin).take 1000) := by
      simp [Transaction.scan, hopen, scanStore]
    have hunfold : exportRows t beg fin (f + 1) nxt
        = match ((rangeOf t.store (cursorKey beg nxt) fin).take 1000).getLast? with
          | Option.none => .ok []
          | some last =>
            match exportRows t beg fin f (some last.1) with
            | .error e => .error e
            | .ok lines =>
              .ok (((rangeOf t.store (cursorKey beg nxt) fin).take 1000).map
                (fun kv => rowLine kv.1 kv.2) ++ lines) := by
      rw [exportRows, hscan]
    cases hres : ((rangeOf t.store (cursorKey beg nxt) fin).take 1000).getLast? with
    | none =>
      simp only [hres] at hunfold
      refine ⟨[], hunfold, ?_⟩
      intro l hl
      cases hl
    | some last =>
      simp only [hres] at hunfold
      have hmemF : last ∈ rangeOf t.store (cursorKey beg nxt) fin :=
        List.mem_of_mem_take (List.mem_of_getLast?_eq_some hres)
      have hsle : keyLe (cursorKey beg nxt) last.1 = true := (mem_rangeOf.mp hmemF).2.1
      have hnew : rangeOf t.store (last.1 ++ [0]) fin
          = (rangeOf t.store (cursorKey beg nxt) fin).filter
              (fun kv => keyLt last.1 kv.1) := by
        rw [rangeOf, rangeOf, List.filter_filter]
        apply List.filter_congr
        intro kv _
        rw [keyLe, keyLt_append_zero, Bool.not_not]
        cases hq : keyLt last.1 kv.1
        · simp
        · have hlekv : keyLe (cursorKey beg nxt) kv.1 = true :=
            keyLe_of_keyLt (keyLe_keyLt_trans hsle hq)
          rw [hlekv]
          cases hf : keyLt kv.1 fin <;> simp
      have hshrink : ((rangeOf t.store (cursorKey beg nxt) fin).filter
          (fun kv => keyLt last.1 kv.1)).length
          < (rangeOf t.store (cursorKey beg nxt) fin).length := by
        apply List.length_filter_lt_length_iff_exists.mpr
        exact ⟨last, hmemF, by simp [keyLt_irrefl]⟩
      obtain ⟨rows', hrec, hprop⟩ := ih (some last.1) (by
        rw [show cursorKey beg (some last.1) = last.1 ++ [0] from rfl, hnew]
        omega)
      refine ⟨((rangeOf t.store (cursorKey beg nxt) fin).take 1000).map
        (fun kv => rowLine kv.1 kv.2) ++ rows', ?_, ?_⟩
      · rw [hunfold, hrec]
      · intro l hl
        rcases List.mem_append.mp hl with hl | hl
        · obtain ⟨kv, _, hkv⟩ := List.mem_map.mp hl
          exact ⟨kv.1, kv.2, hkv.symm⟩
        · exact hprop l hl

/-- The table-data half of the exporter succeeds on an open transaction and
produces one banner-led block of `UPDATE` rows per table, in order. -/
theorem exportData_shape (ns db : String) :
    ∀ (tbs : List DefineTableStatement) (t : Transaction), t.closed = false →
      ∃ datas : List (List String), exportData ns db t tbs = .ok datas.flatten
        ∧ datas.length = tbs.length
        ∧ ∀ i (hd : i < datas.length) (hi : i < tbs.length), ∃ rows,
            datas.get ⟨i, hd⟩
              = bannerLines ("-- TABLE DATA: " ++ (tbs.get ⟨i, hi⟩).name) ++ rows ++ [""]
            ∧ ∀ l ∈ rows, ∃ k v, l = rowLine k v := by
  intro tbs
  induction tbs with
  | nil =>
    intro t ht
    refine ⟨[], rfl, rfl, ?_⟩
    intro i hd
    simp at hd
  | cons tb rest ih =>
    intro t ht
    obtain ⟨rows, hrows, hprop⟩ := exportRows_shape t (thingBeg ns db tb.name)
      (thingFin ns db tb.name) ht (t.store.length + 1) Option.none (by
        have hle := List.length_filter_le (fun kv => keyLe (thingBeg ns db tb.name) kv.1
          && keyLt kv.1 (thingFin ns db tb.name)) t.store
        rw [show cursorKey (thingBeg ns db tb.name) Option.none
          = thingBeg ns db tb.name from rfl]
        simp only [rangeOf]
        omega)
    obtain ⟨datas, hdata, hlen, hidx⟩ := ih t ht
    refine ⟨(bannerLines ("-- TABLE DATA: " ++ tb.name) ++ rows ++ [""]) :: datas,
      ?_, ?_, ?_⟩
    · simp only [exportData, hrows, hdata, List.flatten_cons]
    · simp [hlen]
    · intro i hd hi
      cases i with
      | zero => exact ⟨rows, rfl, hprop⟩
      | succ j => exact hidx j (by simpa using hd) (by simpa using hi)

theorem sectionBlock_shape {α : Type} (title : String) (f : α → String) (xs : List α) :
    (sectionBlock title (xs.map f) = [] ↔ xs = [])
    ∧ (xs ≠ [] → sectionBlock title (xs.map f) = bannerLines title ++ xs.map f ++ [""]) := by
  cases xs with
  | nil => simp [sectionBlock]
  | cons a l => simp [sectionBlock, bannerLines]

theorem take6_optionBlock (rest : List String) :
    (optionBlock ++ rest).take 6 = optionBlock :=
  List.take_left' rfl


/-- C5: export of a namespace+database pair.  `OPTION IMPORT;` is always the
first statement, right after its banner; the LOGINS, TOKENS and SCOPES
sections appear, each preceded by its banner, exactly when the corresponding
list is non-empty; and `BEGIN TRANSACTION;`, the per-table row data (each row
an `UPDATE <thing> CONTENT <value>;` line) and a closing `COMMIT TRANSACTION;`
are emitted if and only if at least one table exists, with each table's DEFINE
statement followed by its field, index and event definitions. -/
theorem export_shape (t : Transaction) (ns db : String)
    (hopen : t.closed = false) (hcache : t.cache = [])
    (dls : List DefineLoginStatement) (dts : List DefineTokenStatement)
    (scs : List DefineScopeStatement) (tbs : List DefineTableStatement)
    (t1 t2 t3 t4 : Transaction)
    (h1 : t.all_dl ns db = .ok (dls, t1))
    (h2 : t1.all_dt ns db = .ok (dts, t2))
    (h3 : t2.all_sc ns db = .ok (scs, t3))
    (h4 : t3.all_tb ns db = .ok (tbs, t4)) :
    ∃ lines t5, t.export ns db = .ok (lines, t5)
      ∧ lines.take 6 = optionBlock
      ∧ ∃ A B C D, lines = optionBlock ++ (A ++ (B ++ (C ++ D)))
        ∧ (A = [] ↔ dls = [])
        ∧ (dls ≠ [] → A = bannerLines ("-- LOGINS")
            ++ dls.map (fun x => renderDl x ++ ";") ++ [""])
        ∧ (B = [] ↔ dts = [])
        ∧ (dts ≠ [] → B = bannerLines ("-- TOKENS")
            ++ dts.map (fun x => renderDt x ++ ";") ++ [""])
        ∧ (C = [] ↔ scs = [])
        ∧ (scs ≠ [] → C = bannerLines ("-- SCOPES")
            ++ scs.map (fun x => renderSc x ++ ";") ++ [""])
        ∧ (tbs = [] → D = [])
        ∧ (tbs ≠ [] → ∃ blocks datas : List (List String),
            D = blocks.flatten ++ txBlock ("BEGIN TRANSACTION;")
              ++ datas.flatten ++ txBlock ("COMMIT TRANSACTION;")
            ∧ blocks.length = tbs.length ∧ datas.length = tbs.length
            ∧ (∀ i (hb : i < blocks.length) (hi : i < tbs.length), ∃ fds ixs evs,
                blocks.get ⟨i, hb⟩ = tableDefBlock (tbs.get ⟨i, hi⟩) fds ixs evs)
            ∧ (∀ i (hd : i < datas.length) (hi : i < tbs.length), ∃ rows,
                datas.get ⟨i, hd⟩ = bannerLines ("-- TABLE DATA: "
                    ++ (tbs.get ⟨i, hi⟩).name) ++ rows ++ [""]
                ∧ ∀ l ∈ rows, ∃ k v, l = rowLine k v)) := by
  obtain ⟨hc1, hs1, hd1⟩ := all_dl_delta h1
  obtain ⟨hc2, hs2, hd2⟩ := all_dt_delta h2
  obtain ⟨hc3, hs3, hd3⟩ := all_sc_delta h3
  obtain ⟨hc4, hs4, hd4⟩ := all_tb_delta h4
  have hopen4 : t4.closed = false := by
    rw [hc4, hc3, hc2, hc1]
    exact hopen
  have hwf1 : TblCacheOk t1.cache ns db := by
    rcases hd1 with h | h
    · rw [h, hcache]
      exact tblCacheOk_nil ns db
    · rw [h, hcache]
      exact tblCacheOk_set [] ns db (tblCacheOk_nil ns db) _ _
        (fun x hx => absurd hx (listBegOf_ne_tag (by decide) _ _))
        (fun x hx => absurd hx (listBegOf_ne_tag (by decide) _ _))
        (fun x hx => absurd hx (listBegOf_ne_tag (by decide) _ _))
  have hwf2 : TblCacheOk t2.cache ns db := by
    rcases hd2 with h | h
    · rw [h]
      exact hwf1
    · rw [h]
      exact tblCacheOk_set t1.cache ns db hwf1 _ _
        (fun x hx => absurd hx (listBegOf_ne_tag (by decide) _ _))
        (fun x hx => absurd hx (listBegOf_ne_tag (by decide) _ _))
        (fun x hx => absurd hx (listBegOf_ne_tag (by decide) _ _))
  have hwf3 : TblCacheOk t3.cache ns db := by
    rcases hd3 with h | h
    · rw [h]
      exact hwf2
    · rw [h]
      exact tblCacheOk_set t2.cache ns db hwf2 _ _
        (fun x hx => absurd hx (listBegOf_ne_tag (by decide) _ _))
        (fun x hx => absurd hx (listBegOf_ne_tag (by decide) _ _))
        (fun x hx => absurd hx (listBegOf_ne_tag (by decide) _ _))
  have hwf4 : TblCacheOk t4.cache ns db := by
    rcases hd4 with h | h
    · rw [h]
      exact hwf3
    · rw [h]
      exact tblCacheOk_set t3.cache ns db hwf3 _ _
        (fun x hx => absurd hx (listBegOf_ne_tag (by decide) _ _))
        (fun x hx => absurd hx (listBegOf_ne_tag (by decide) _ _))
        (fun x hx => absurd hx (listBegOf_ne_tag (by decide) _ _))
  cases tbs with
  | nil =>
    have hexp : t.export ns db
        = .ok (optionBlock
          ++ sectionBlock ("-- LOGINS") (dls.map (fun x => renderDl x ++ ";"))
          ++ sectionBlock ("-- TOKENS") (dts.map (fun x => renderDt x ++ ";"))
          ++ sectionBlock ("-- SCOPES") (scs.map (fun x => renderSc x ++ ";")), t4) := by
      simp only [Transaction.export, h1, h2, h3, h4, List.isEmpty_nil, if_true]
    refine ⟨_, t4, hexp, ?_,
      sectionBlock ("-- LOGINS") (dls.map (fun x => renderDl x ++ ";")),
      sectionBlock ("-- TOKENS") (dts.map (fun x => renderDt x ++ ";")),
      sectionBlock ("-- SCOPES") (scs.map (fun x => renderSc x ++ ";")),
      [], ?_, ?_, ?_, ?_, ?_, ?_, ?_, ?_, ?_⟩
    · simp only [List.append_assoc]
      exact take6_optionBlock _
    · simp [List.append_assoc]
    · exact (sectionBlock_shape ("-- LOGINS") (fun x => renderDl x ++ ";") dls).1
    · exact (sectionBlock_shape ("-- LOGINS") (fun x => renderDl x ++ ";") dls).2
    · exact (sectionBlock_shape ("-- TOKENS") (fun x => renderDt x ++ ";") dts).1
    · exact (sectionBlock_shape ("-- TOKENS") (fun x => renderDt x ++ ";") dts).2
    · exact (sectionBlock_shape ("-- SCOPES") (fun x => renderSc x ++ ";") scs).1
    · exact (sectionBlock_shape ("-- SCOPES") (fun x => renderSc x ++ ";") scs).2
    · intro _
      rfl
    · intro h
      exact absurd rfl h
  | cons tb rest =>
    obtain ⟨blocks, t5, hdefs, hcl5, hst5, hwf5, hblen, hbidx⟩ :=
      exportDefs_shape ns db (tb :: rest) t4 hopen4 hwf4
    obtain ⟨datas, hdata, hdlen, hdidx⟩ := exportData_shape ns db (tb :: rest) t5 hcl5
    have hexp : t.export ns db
        = .ok (optionBlock
          ++ sectionBlock ("-- LOGINS") (dls.map (fun x => renderDl x ++ ";"))
          ++ sectionBlock ("-- TOKENS") (dts.map (fun x => renderDt x ++ ";"))
          ++ sectionBlock ("-- SCOPES") (scs.map (fun x => renderSc x ++ ";"))
          ++ blocks.flatten
          ++ txBlock ("BEGIN TRANSACTION;")
          ++ datas.flatten
          ++ txBlock ("COMMIT TRANSACTION;"), t5) := by
      simp only [Transaction.export, h1, h2, h3, h4, List.isEmpty_cons,
        Bool.false_eq_true, if_false, hdefs, hdata]
    refine ⟨_, t5, hexp, ?_,
      sectionBlock ("-- LOGINS") (dls.map (fun x => renderDl x ++ ";")),
      sectionBlock ("-- TOKENS") (dts.map (fun x => renderDt x ++ ";")),
      sectionBlock ("-- SCOPES") (scs.map (fun x => renderSc x ++ ";")),
      blocks.flatten ++ txBlock ("BEGIN TRANSACTION;")
        ++ datas.flatten ++ txBlock ("COMMIT TRANSACTION;"),
      ?_, ?_, ?_, ?_, ?_, ?_, ?_, ?_, ?_⟩
    · simp only [List.append_assoc]
      exact take6_optionBlock _
    · simp [List.append_assoc]
    · exact (sectionBlock_shape ("-- LOGINS") (fun x => renderDl x ++ ";") dls).1
    · exact (sectionBlock_shape ("-- LOGINS") (fun x => renderDl x ++ ";") dls).2
    · exact (sectionBlock_shape ("-- TOKENS") (fun x => renderDt x ++ ";") dts).1
    · exact (sectionBlock_shape ("-- TOKENS") (fun x => renderDt x ++ ";") dts).2
    · exact (sectionBlock_shape ("-- SCOPES") (fun x => renderSc x ++ ";") scs).1
    · exact (sectionBlock_shape ("-- SCOPES") (fun x => renderSc x ++ ";") scs).2
    · intro h
      exact absurd h (List.cons_ne_nil tb rest)
    · intro _
      exact ⟨blocks, datas, rfl, hblen, hdlen, hbidx, hdidx⟩

def txC5 : Transaction := { closed := false, store := [], cache := [] }

def txC5a : Transaction :=
  { closed := false, store := [], cache := [(dlListBeg nsW dbW, Entry.Dls [])] }

def txC5b : Transaction :=
  { closed := false, store := [],
    cache := [(dtListBeg nsW dbW, Entry.Dts []), (dlListBeg nsW dbW, Entry.Dls [])] }

def txC5c : Transaction :=
  { closed := false, store := [],
    cache := [(scListBeg nsW dbW, Entry.Scs []), (dtListBeg nsW dbW, Entry.Dts []),
      (dlListBeg nsW dbW, Entry.Dls [])] }

def txC5d : Transaction :=
  { closed := false, store := [],
    cache := [(tbListBeg nsW dbW, Entry.Tbs []), (scListBeg nsW dbW, Entry.Scs []),
      (dtListBeg nsW dbW, Entry.Dts []), (dlListBeg nsW dbW, Entry.Dls [])] }

theorem export_shape_witness :
    ∃ lines t5, txC5.export nsW dbW = .ok (lines, t5) ∧ lines.take 6 = optionBlock := by
  obtain ⟨lines, t5, hexp, htake, -⟩ := export_shape txC5 nsW dbW rfl rfl
    [] [] [] [] txC5a txC5b txC5c txC5d (by rfl) (by rfl) (by rfl) (by rfl)
  exact ⟨lines, t5, hexp, htake⟩

end KVS
